import Mathlib

/-!
Verification of the P6-stock-selection backtesting engine.

This file shallowly embeds the point-in-time universe replay
(`sp500_constituents.py`), the walk-forward simulation loop (`main.py`),
the per-security panel merge (`processing_tickers.py`), the target
engineering (`five_category_division.py`), the cumulative-importance
feature selector (`eighty_cummulative.py`) and the equity-curve builder
(`equity_curve.py`), and proves the spec's testable properties about them.

Modelling conventions, shared by all components:
* calendar dates are encoded as natural numbers `year*10000 + month*100 + day`,
  so that the numeric order coincides with the chronological order and with the
  lexicographic order of ISO `YYYY-MM-DD` strings used by the source;
* floating-point values are modelled as rationals (`ℚ`);
* a pandas `NaN`/`NaT` cell is an `Option` that is `none`;
* a Python function that may raise is a function into `Option`/`Except`.
-/

/-- Stable insertion of `e` into `l`: `e` is placed in front of the first
element `x` with `lt x e = false`.  Folding this over a list from the right
reproduces the behaviour of Python's stable `sorted`: elements compare by
`lt`, and elements that compare equal keep their original relative order. -/
def insertStable {α : Type} (lt : α → α → Bool) (e : α) : List α → List α
  | [] => [e]
  | x :: xs => if lt x e then x :: insertStable lt e xs else e :: x :: xs

/-- Stable sort by the strict comparison `lt`, modelling Python's `sorted`
(and pandas `sort_values`) with comparison `lt`. -/
def sortStable {α : Type} (lt : α → α → Bool) (l : List α) : List α :=
  l.foldr (insertStable lt) []

theorem mem_insertStable {α : Type} (lt : α → α → Bool) (e a : α) :
    ∀ l : List α, a ∈ insertStable lt e l ↔ a = e ∨ a ∈ l := by
  intro l
  induction l with
  | nil => simp [insertStable]
  | cons x xs ih =>
      by_cases h : lt x e = true
      · simp only [insertStable, h, if_true, List.mem_cons, ih]
        try tauto
      · simp only [insertStable, h, if_false, Bool.false_eq_true, List.mem_cons]
        try tauto

theorem mem_sortStable {α : Type} (lt : α → α → Bool) (a : α) :
    ∀ l : List α, a ∈ sortStable lt l ↔ a ∈ l := by
  intro l
  induction l with
  | nil => simp [sortStable]
  | cons x xs ih =>
      simp only [sortStable, List.foldr_cons] at *
      rw [mem_insertStable]
      simp [ih]

theorem pairwise_insertStable {α : Type} (lt : α → α → Bool) (le : α → α → Prop)
    (htrans : Transitive le)
    (h1 : ∀ a b, lt a b = true → le a b) (h2 : ∀ a b, lt a b = false → le b a)
    (e : α) : ∀ l : List α, l.Pairwise le → (insertStable lt e l).Pairwise le := by
  intro l
  induction l with
  | nil => intro _; simp [insertStable, List.pairwise_cons]
  | cons x xs ih =>
      intro hp
      rw [List.pairwise_cons] at hp
      by_cases h : lt x e = true
      · simp only [insertStable, h, if_true]
        rw [List.pairwise_cons]
        constructor
        · intro b hb
          rcases (mem_insertStable lt e b xs).mp hb with hbe | hbx
          · exact hbe ▸ h1 _ _ h
          · exact hp.1 b hbx
        · exact ih hp.2
      · simp only [insertStable, h, if_false, Bool.false_eq_true]
        rw [List.pairwise_cons]
        refine ⟨?_, List.pairwise_cons.mpr hp⟩
        intro b hb
        rcases List.mem_cons.mp hb with hbx | hbxs
        · exact hbx ▸ h2 _ _ (by simpa using h)
        · exact htrans (h2 _ _ (by simpa using h)) (hp.1 b hbxs)

theorem pairwise_sortStable {α : Type} (lt : α → α → Bool) (le : α → α → Prop)
    (htrans : Transitive le)
    (h1 : ∀ a b, lt a b = true → le a b) (h2 : ∀ a b, lt a b = false → le b a) :
    ∀ l : List α, (sortStable lt l).Pairwise le := by
  intro l
  induction l with
  | nil => simp [sortStable]
  | cons x xs ih =>
      simpa [sortStable] using
        pairwise_insertStable lt le htrans h1 h2 x _ (by simpa [sortStable] using ih)

/-! ## Universe Timeline Builder (`sp500_constituents.py`) -/

/-- One S&P 500 constituent change record, as consumed by
`SP500Constituents.process_quarterly_changes`.  `date` is the parsed
`date_dt` field: `none` models `pd.NaT` (a missing or unparseable
effective date).  `symbol`/`removedTicker` are `none` when the field is
absent or falsy (the code guards with `if ... in change and change[...]`). -/
structure ChangeEvent where
  date : Option Nat
  symbol : Option String
  removedTicker : Option String
deriving DecidableEq

/-- Sort key used by `sorted(changes, key=...)`: an unparseable date is
replaced by `datetime.min`, which is strictly below every real date.
Encoding: `none ↦ 0` and `some d ↦ d + 1`. -/
def eventSortKey (e : ChangeEvent) : Nat :=
  match e.date with
  | some d => d + 1
  | none => 0

/-- The comparison `changes_sorted[i]["date_dt"] <= q_date` of the replay
loop.  In pandas, `NaT <= q_date` is `False`. -/
def dateLeB (d : Option Nat) (q : Nat) : Bool :=
  match d with
  | some x => decide (x ≤ q)
  | none => false

/-- `sorted(changes, key=lambda x: x["date_dt"] if ... else datetime.min)`. -/
def sortChanges (changes : List ChangeEvent) : List ChangeEvent :=
  sortStable (fun a b => decide (eventSortKey a < eventSortKey b)) changes

/-- Body of the replay `while` loop: discard `removedTicker` (if present)
from the running constituent set, then add `symbol` (if present). -/
def applyEvent (s : Finset String) (e : ChangeEvent) : Finset String :=
  let s1 := match e.removedTicker with
    | some r => s.erase r
    | none => s
  match e.symbol with
  | some a => insert a s1
  | none => s1

/-- The `while change_index < num_changes and ... <= q_date` cursor loop:
applies the leading events whose effective date is `≤ q` and returns the
unconsumed suffix together with the updated constituent set. -/
def applyUpTo (q : Nat) : List ChangeEvent → Finset String →
    List ChangeEvent × Finset String
  | [], s => ([], s)
  | e :: es, s =>
      if dateLeB e.date q then applyUpTo q es (applyEvent s e)
      else (e :: es, s)

/-- The quarter-start dates of one calendar year, encoded as
`y*10000 + m*100 + 1`. -/
def quarterDatesOfYear (y : Nat) : List Nat :=
  [y * 10000 + 101, y * 10000 + 401, y * 10000 + 701, y * 10000 + 1001]

/-- `generate_quarterly_dates(f"{sy}-01-01", f"{ey}-12-31")`:
`pd.date_range(..., freq='QS')` yields every quarter-start day between
January 1 of `sy` and December 31 of `ey`, i.e. the four quarter starts of
each year from `sy` through `ey`. -/
def quarterStarts (sy ey : Nat) : List Nat :=
  (List.range' sy (ey + 1 - sy)).flatMap quarterDatesOfYear

/-- The `for q_date in quarterly_dates` replay loop: advance the event
cursor to the current boundary, then record a snapshot if the boundary's
year is at least `output_start_year`. -/
def replayLoop (sy : Nat) : List ChangeEvent → Finset String → List Nat →
    List (Nat × Finset String)
  | _, _, [] => []
  | evs, s, q :: qs =>
      let r := applyUpTo q evs s
      if sy ≤ q / 10000 then (q, r.2) :: replayLoop sy r.1 r.2 qs
      else replayLoop sy r.1 r.2 qs

/-- `SP500Constituents.process_quarterly_changes`: sort the change records
chronologically (unparseable dates first) and replay them cumulatively
against quarter boundaries from `output_start_year` through `end_year`. -/
def process_quarterly_changes (changes : List ChangeEvent) (sy ey : Nat) :
    List (Nat × Finset String) :=
  replayLoop sy (sortChanges changes) ∅ (quarterStarts sy ey)

/-- `keyLe a b` : event `a` sorts no later than event `b`. -/
def keyLe (a b : ChangeEvent) : Prop := eventSortKey a ≤ eventSortKey b

theorem applyUpTo_eq (q : Nat) :
    ∀ (evs : List ChangeEvent) (s : Finset String),
      applyUpTo q evs s =
        (evs.dropWhile (fun e => dateLeB e.date q),
         (evs.takeWhile (fun e => dateLeB e.date q)).foldl applyEvent s) := by
  intro evs
  induction evs with
  | nil => intro s; simp [applyUpTo, List.dropWhile, List.takeWhile]
  | cons e es ih =>
      intro s
      by_cases h : dateLeB e.date q = true
      · simp [applyUpTo, h, List.dropWhile_cons, List.takeWhile_cons, ih]
      · simp [applyUpTo, h, List.dropWhile_cons, List.takeWhile_cons]

theorem filter_eq_nil_of_forall_false {α : Type} (p : α → Bool) :
    ∀ l : List α, (∀ b ∈ l, p b = false) → List.filter p l = [] := by
  intro l
  induction l with
  | nil => intro _; rfl
  | cons b bs ihb =>
      intro hall
      rw [List.filter_cons]
      simp only [hall b (List.mem_cons_self _ _), if_false, Bool.false_eq_true]
      exact ihb (fun c hc => hall c (List.mem_cons_of_mem _ hc))

theorem filter_not_eq_self_of_forall_false {α : Type} (p : α → Bool) :
    ∀ l : List α, (∀ b ∈ l, p b = false) → List.filter (fun a => !(p a)) l = l := by
  intro l
  induction l with
  | nil => intro _; rfl
  | cons b bs ihb =>
      intro hall
      rw [List.filter_cons]
      simp only [hall b (List.mem_cons_self _ _), Bool.not_false, if_true]
      rw [ihb (fun c hc => hall c (List.mem_cons_of_mem _ hc))]

theorem takeWhile_eq_filter_of_pairwise {α : Type} (p : α → Bool) (le : α → α → Prop) :
    ∀ l : List α, l.Pairwise le →
      (∀ a ∈ l, ∀ b ∈ l, le a b → p b = true → p a = true) →
      l.takeWhile p = l.filter p ∧
      l.dropWhile p = l.filter (fun a => !(p a)) := by
  intro l
  induction l with
  | nil => intro _ _; simp
  | cons x xs ih =>
      intro hp hdc
      rw [List.pairwise_cons] at hp
      have ihx := ih hp.2 (fun a ha b hb => hdc a (List.mem_cons_of_mem _ ha)
        b (List.mem_cons_of_mem _ hb))
      by_cases h : p x = true
      · simp [List.takeWhile_cons, List.dropWhile_cons, h, ihx.1, ihx.2,
          List.filter_cons]
      · have hxs_false : ∀ b ∈ xs, p b = false := by
          intro b hb
          by_contra hb'
          have : p b = true := by
            cases hpb : p b
            · exact absurd hpb hb'
            · rfl
          exact h (hdc x (List.mem_cons_self _ _) b (List.mem_cons_of_mem _ hb)
            (hp.1 b hb) this)
        have hnil : List.filter p xs = [] :=
          filter_eq_nil_of_forall_false p xs hxs_false
        have hself : List.filter (fun a => !(p a)) xs = xs :=
          filter_not_eq_self_of_forall_false p xs hxs_false
        constructor
        · rw [List.takeWhile_cons]
          simp only [h, if_false, Bool.false_eq_true]
          rw [List.filter_cons]
          simp only [h, if_false, Bool.false_eq_true]
          exact hnil.symm
        · rw [List.dropWhile_cons]
          simp only [h, if_false, Bool.false_eq_true]
          rw [List.filter_cons]
          have hpt : (!p x) = true := by simp [h]
          simp only [hpt, if_true]
          rw [hself]

theorem mem_applyEvent (s : Finset String) (e : ChangeEvent) (sym : String) :
    sym ∈ applyEvent s e ↔
      e.symbol = some sym ∨ (sym ∈ s ∧ e.removedTicker ≠ some sym) := by
  cases ha : e.symbol with
  | none =>
      cases hr : e.removedTicker with
      | none => simp [applyEvent, ha, hr]
      | some r =>
          simp only [applyEvent, ha, hr, Finset.mem_erase]
          constructor
          · rintro ⟨h1, h2⟩; right; exact ⟨h2, by simp [Ne, h1, eq_comm]⟩
          · rintro (h | ⟨h1, h2⟩)
            · exact absurd h (by simp)
            · exact ⟨fun he => h2 (by simp [he]), h1⟩
  | some a =>
      cases hr : e.removedTicker with
      | none =>
          simp only [applyEvent, ha, hr, Finset.mem_insert]
          constructor
          · rintro (h | h)
            · left; simp [h]
            · right; exact ⟨h, by simp⟩
          · rintro (h | ⟨h1, _⟩)
            · left; injection h with h; exact h.symm
            · right; exact h1
      | some r =>
          simp only [applyEvent, ha, hr, Finset.mem_insert, Finset.mem_erase]
          constructor
          · rintro (h | ⟨h1, h2⟩)
            · left; simp [h]
            · right; exact ⟨h2, by simp [Ne, h1, eq_comm]⟩
          · rintro (h | ⟨h1, h2⟩)
            · left; injection h with h; exact h.symm
            · right; exact ⟨fun he => h2 (by simp [he]), h1⟩

theorem exists_split_cons {α : Type} (P : α → List α → Prop) (e : α) (L : List α) :
    (∃ L1 e' L2, e :: L = L1 ++ e' :: L2 ∧ P e' L2) ↔
      P e L ∨ (∃ L1 e' L2, L = L1 ++ e' :: L2 ∧ P e' L2) := by
  constructor
  · rintro ⟨L1, e', L2, heq, hP⟩
    cases L1 with
    | nil =>
        simp only [List.nil_append, List.cons.injEq] at heq
        left
        rw [heq.1, heq.2]
        exact hP
    | cons x L1' =>
        simp only [List.cons_append, List.cons.injEq] at heq
        right
        exact ⟨L1', e', L2, heq.2, hP⟩
  · rintro (h | ⟨L1, e', L2, heq, hP⟩)
    · exact ⟨[], e, L, rfl, h⟩
    · exact ⟨e :: L1, e', L2, by rw [heq, List.cons_append], hP⟩

theorem or_and_shuffle (S A I R N : Prop) :
    (S ∨ ((A ∨ (I ∧ R)) ∧ N)) ↔ (((A ∧ N) ∨ S) ∨ (I ∧ (R ∧ N))) := by
  tauto

theorem mem_foldl_applyEvent (sym : String) :
    ∀ (L : List ChangeEvent) (init : Finset String),
      sym ∈ L.foldl applyEvent init ↔
        (∃ L1 e L2, L = L1 ++ e :: L2 ∧ e.symbol = some sym ∧
          ∀ e' ∈ L2, e'.removedTicker ≠ some sym) ∨
        (sym ∈ init ∧ ∀ e ∈ L, e.removedTicker ≠ some sym) := by
  intro L
  induction L with
  | nil =>
      intro init
      simp only [List.foldl_nil, List.not_mem_nil]
      constructor
      · intro h; right; exact ⟨h, by intro e he; cases he⟩
      · rintro (⟨L1, e, L2, heq, _⟩ | ⟨h, _⟩)
        · exact absurd heq (by simp [List.append_ne_nil_of_right_ne_nil])
        · exact h
  | cons e L ih =>
      intro init
      rw [List.foldl_cons, ih (applyEvent init e),
        exists_split_cons (fun e' L2 => e'.symbol = some sym ∧
          ∀ e'' ∈ L2, e''.removedTicker ≠ some sym) e L,
        mem_applyEvent]
      simp only [List.forall_mem_cons]
      exact or_and_shuffle _ _ _ _ _

theorem mem_quarterDatesOfYear {y d : Nat} (h : d ∈ quarterDatesOfYear y) :
    y * 10000 + 101 ≤ d ∧ d ≤ y * 10000 + 1001 := by
  simp only [quarterDatesOfYear, List.mem_cons, List.mem_singleton,
    List.not_mem_nil, or_false] at h
  rcases h with h | h | h | h <;> omega

theorem pairwise_flatMap_quarterDates :
    ∀ (n sy : Nat), ((List.range' sy n).flatMap quarterDatesOfYear).Pairwise (· < ·) := by
  intro n
  induction n with
  | zero => intro sy; simp
  | succ n ih =>
      intro sy
      rw [List.range'_succ, List.flatMap_cons, List.pairwise_append]
      refine ⟨?_, ih (sy + 1), ?_⟩
      · simp only [quarterDatesOfYear, List.pairwise_cons, List.mem_cons,
          List.mem_singleton, List.not_mem_nil, or_false, List.Pairwise.nil]
        refine ⟨?_, ?_, ?_, by simp⟩ <;> intro a ha <;>
          (try rcases ha with ha | ha | ha) <;> omega
      · intro a ha b hb
        have ha' := mem_quarterDatesOfYear ha
        rw [List.mem_flatMap] at hb
        obtain ⟨y, hy, hb'⟩ := hb
        have hb'' := mem_quarterDatesOfYear hb'
        have hy' : sy + 1 ≤ y := by
          rw [List.mem_range'_1] at hy
          omega
        have : (sy + 1) * 10000 ≤ y * 10000 := Nat.mul_le_mul_right _ hy'
        omega

theorem pairwise_lt_quarterStarts (sy ey : Nat) :
    (quarterStarts sy ey).Pairwise (· < ·) :=
  pairwise_flatMap_quarterDates (ey + 1 - sy) sy

theorem year_mem_quarterStarts {sy ey q : Nat} (h : q ∈ quarterStarts sy ey) :
    sy ≤ q / 10000 := by
  rw [quarterStarts, List.mem_flatMap] at h
  obtain ⟨y, hy, hq⟩ := h
  have hb := mem_quarterDatesOfYear hq
  have hy' : sy ≤ y := by
    rw [List.mem_range'_1] at hy
    omega
  have : q / 10000 = y := by omega
  omega

theorem quarterStarts_filter_year (sy ey : Nat) :
    (quarterStarts sy ey).filter (fun q => decide (sy ≤ q / 10000)) =
      quarterStarts sy ey := by
  rw [List.filter_eq_self]
  intro q hq
  simpa using year_mem_quarterStarts hq

theorem replayLoop_eq (sy : Nat) :
    ∀ (qs : List Nat) (D evs : List ChangeEvent),
      (D ++ evs).Pairwise keyLe →
      (∀ e ∈ D ++ evs, e.date.isSome) →
      qs.Pairwise (· ≤ ·) →
      (∀ e ∈ D, ∀ q ∈ qs, dateLeB e.date q = true) →
      replayLoop sy evs (List.foldl applyEvent ∅ D) qs =
        (qs.filter (fun q => decide (sy ≤ q / 10000))).map
          (fun q => (q, List.foldl applyEvent ∅
            ((D ++ evs).filter (fun e => dateLeB e.date q)))) := by
  intro qs
  induction qs with
  | nil => intro D evs _ _ _ _; simp [replayLoop]
  | cons q qs' ih =>
      intro D evs hsort hsome hqs hD
      have hqs' := (List.pairwise_cons.mp hqs).2
      have hqhead := (List.pairwise_cons.mp hqs).1
      have hsort_evs : evs.Pairwise keyLe := (List.pairwise_append.mp hsort).2.1
      have hsome_evs : ∀ e ∈ evs, e.date.isSome := fun e he =>
        hsome e (List.mem_append_right D he)
      have hdc : ∀ a ∈ evs, ∀ b ∈ evs,
          keyLe a b → dateLeB b.date q = true → dateLeB a.date q = true := by
        intro a ha b hb hab hbq
        obtain ⟨da, hda⟩ := Option.isSome_iff_exists.mp (hsome_evs a ha)
        obtain ⟨db, hdb⟩ := Option.isSome_iff_exists.mp (hsome_evs b hb)
        have hka : eventSortKey a = da + 1 := by rw [eventSortKey, hda]
        have hkb : eventSortKey b = db + 1 := by rw [eventSortKey, hdb]
        have hab' : da + 1 ≤ db + 1 := by rw [keyLe, hka, hkb] at hab; exact hab
        rw [hdb] at hbq
        rw [dateLeB, decide_eq_true_eq] at hbq
        rw [hda, dateLeB, decide_eq_true_eq]
        omega
      have tw := takeWhile_eq_filter_of_pairwise
        (fun e => dateLeB e.date q) keyLe evs hsort_evs hdc
      have hfD : List.filter (fun e => dateLeB e.date q) D = D := by
        rw [List.filter_eq_self]
        intro e he
        exact hD e he q (List.mem_cons_self _ _)
      have hfilter_split :
          (D ++ evs).filter (fun e => dateLeB e.date q) =
            D ++ evs.filter (fun e => dateLeB e.date q) := by
        rw [List.filter_append, hfD]
      have hr : applyUpTo q evs (List.foldl applyEvent ∅ D) =
          (evs.filter (fun e => !(dateLeB e.date q)),
           List.foldl applyEvent ∅
             ((D ++ evs).filter (fun e => dateLeB e.date q))) := by
        rw [applyUpTo_eq, tw.1, tw.2, ← List.foldl_append, hfilter_split]
      have hDE : (D ++ evs).filter (fun e => dateLeB e.date q) ++
          evs.filter (fun e => !(dateLeB e.date q)) = D ++ evs := by
        rw [hfilter_split, List.append_assoc, ← tw.1, ← tw.2,
          List.takeWhile_append_dropWhile]
      have hD' : ∀ e ∈ (D ++ evs).filter (fun e => dateLeB e.date q),
          ∀ q' ∈ qs', dateLeB e.date q' = true := by
        intro e he q' hq'
        rw [List.mem_filter] at he
        obtain ⟨d, hd⟩ := Option.isSome_iff_exists.mp (hsome e he.1)
        have he2 := he.2
        rw [hd, dateLeB, decide_eq_true_eq] at he2
        rw [hd, dateLeB, decide_eq_true_eq]
        have := hqhead q' hq'
        omega
      have ihx := ih ((D ++ evs).filter (fun e => dateLeB e.date q))
        (evs.filter (fun e => !(dateLeB e.date q)))
        (by rw [hDE]; exact hsort) (by rw [hDE]; exact hsome) hqs' hD'
      rw [hDE] at ihx
      by_cases hy : sy ≤ q / 10000
      · simp only [replayLoop, hr, if_pos hy, List.filter_cons,
          decide_eq_true_eq, hy, if_true, List.map_cons]
        exact congrArg _ ihx
      · simp only [replayLoop, hr, if_neg hy, List.filter_cons,
          decide_eq_true_eq, hy, if_false]
        exact ihx

theorem pairwise_sortChanges (changes : List ChangeEvent) :
    (sortChanges changes).Pairwise keyLe := by
  refine pairwise_sortStable _ keyLe ?_ ?_ ?_ changes
  · intro a b c hab hbc
    exact le_trans hab hbc
  · intro a b h
    rw [decide_eq_true_eq] at h
    exact le_of_lt h
  · intro a b h
    rw [decide_eq_false_iff_not] at h
    exact le_of_not_lt h

theorem mem_sortChanges (e : ChangeEvent) (changes : List ChangeEvent) :
    e ∈ sortChanges changes ↔ e ∈ changes :=
  mem_sortStable _ e changes

/-- Example input for the point-in-time replay property: a single event
adding AAPL effective 2005-03-23. -/
def c1ExampleEvents : List ChangeEvent :=
  [⟨some 20050323, some "AAPL", none⟩]

/-- **C1**: point-in-time correctness of the universe replay.  For events
with parseable effective dates, every quarter boundary of the output range
receives exactly one snapshot, each snapshot is the cumulative replay of
exactly the events effective on or before that boundary (so no snapshot
reflects a later event), and a symbol is a member of the snapshot at `q`
precisely when some event with effective date `≤ q` added it and no
subsequent event with effective date `≤ q` removed it. -/
theorem universe_replay_pit_correct (changes : List ChangeEvent) (sy ey : Nat)
    (hdates : ∀ e ∈ changes, e.date.isSome) :
    (process_quarterly_changes changes sy ey).map Prod.fst = quarterStarts sy ey ∧
    ∀ q snap, (q, snap) ∈ process_quarterly_changes changes sy ey →
      snap = List.foldl applyEvent ∅
          ((sortChanges changes).filter (fun e => dateLeB e.date q)) ∧
      ∀ sym : String, sym ∈ snap ↔
        ∃ L1 e L2,
          (sortChanges changes).filter (fun e => dateLeB e.date q) =
            L1 ++ e :: L2 ∧
          e.symbol = some sym ∧ ∀ e' ∈ L2, e'.removedTicker ≠ some sym := by
  have key := replayLoop_eq sy (quarterStarts sy ey) [] (sortChanges changes)
    (by simpa using pairwise_sortChanges changes)
    (by
      intro e he
      rw [List.nil_append] at he
      exact hdates e ((mem_sortChanges e changes).mp he))
    ((pairwise_lt_quarterStarts sy ey).imp fun h => le_of_lt h)
    (by intro e he; cases he)
  rw [quarterStarts_filter_year] at key
  simp only [List.nil_append, List.foldl_nil] at key
  have hproc : process_quarterly_changes changes sy ey =
      (quarterStarts sy ey).map
        (fun q => (q, List.foldl applyEvent ∅
          ((sortChanges changes).filter (fun e => dateLeB e.date q)))) := by
    rw [process_quarterly_changes]
    exact key
  constructor
  · rw [hproc, List.map_map]
    have hid : (Prod.fst ∘ fun q => (q, List.foldl applyEvent ∅
        ((sortChanges changes).filter (fun e => dateLeB e.date q)))) =
        fun q : Nat => q := rfl
    rw [hid]
    exact List.map_id' (quarterStarts sy ey)
  · intro q snap hmem
    rw [hproc, List.mem_map] at hmem
    obtain ⟨q', _, heq⟩ := hmem
    rw [Prod.mk.injEq] at heq
    obtain ⟨rfl, rfl⟩ := heq
    refine ⟨rfl, ?_⟩
    intro sym
    rw [mem_foldl_applyEvent sym _ ∅]
    simp only [Finset.not_mem_empty, false_and, or_false]

/-- Witness for C1: instantiated at a concrete single-event stream. -/
theorem universe_replay_pit_correct_witness :
    (∀ e ∈ c1ExampleEvents, e.date.isSome) ∧
    ((process_quarterly_changes c1ExampleEvents 2005 2005).map Prod.fst =
        quarterStarts 2005 2005 ∧
      ∀ q snap, (q, snap) ∈ process_quarterly_changes c1ExampleEvents 2005 2005 →
        snap = List.foldl applyEvent ∅
            ((sortChanges c1ExampleEvents).filter (fun e => dateLeB e.date q)) ∧
        ∀ sym : String, sym ∈ snap ↔
          ∃ L1 e L2,
            (sortChanges c1ExampleEvents).filter (fun e => dateLeB e.date q) =
              L1 ++ e :: L2 ∧
            e.symbol = some sym ∧ ∀ e' ∈ L2, e'.removedTicker ≠ some sym) :=
  ⟨by decide, universe_replay_pit_correct c1ExampleEvents 2005 2005 (by decide)⟩

/-- **C6**: evaluating `process_quarterly_changes` on a stream containing
one event with an unparseable effective date (`date = none`, i.e. `NaT`).
The event sorts first (key `datetime.min`), but `NaT <= q_date` is false,
so the cursor `while` loop stops at it immediately and never advances:
neither the unparseable event nor any later, well-dated event is ever
applied, and every snapshot comes out empty.  The second conjunct shows
the same stream without the unparseable event replays normally, so its
mere presence changes how the remaining events are replayed. -/
theorem unparseable_date_blocks_replay :
    process_quarterly_changes
        [⟨none, some "MSFT", none⟩, ⟨some 20050323, some "AAPL", none⟩]
        2005 2005 =
      [(20050101, (∅ : Finset String)), (20050401, ∅), (20050701, ∅),
        (20051001, ∅)] ∧
    process_quarterly_changes [⟨some 20050323, some "AAPL", none⟩] 2005 2005 =
      [(20050101, (∅ : Finset String)), (20050401, {"AAPL"}),
        (20050701, {"AAPL"}), (20051001, {"AAPL"})] := by
  constructor
  · decide
  · decide

/-- **C7 counterexample**: on an empty event stream the builder neither
fails nor returns an empty timeline: it returns one (empty) snapshot per
quarter boundary, and no error path exists in `process_quarterly_changes`
(the embedding is a total function). -/
theorem empty_event_source_not_empty_timeline :
    process_quarterly_changes [] 2005 2005 =
      [(20050101, (∅ : Finset String)), (20050401, ∅), (20050701, ∅),
        (20051001, ∅)] ∧
    process_quarterly_changes [] 2005 2005 ≠ [] := by
  constructor
  · decide
  · decide

/-- **C7 amended**: given an empty sequence of change events, the timeline
builder raises no error and returns a timeline with one snapshot per
quarter boundary of the output range, each snapshot having an empty
membership set; the caller decides whether that is fatal. -/
theorem empty_event_source_yields_empty_snapshots (sy ey : Nat) :
    process_quarterly_changes [] sy ey =
      (quarterStarts sy ey).map (fun q => (q, (∅ : Finset String))) := by
  have key := replayLoop_eq sy (quarterStarts sy ey) [] []
    (by simp) (by simp)
    ((pairwise_lt_quarterStarts sy ey).imp fun h => le_of_lt h)
    (by intro e he; cases he)
  rw [quarterStarts_filter_year] at key
  simp only [List.nil_append, List.foldl_nil, List.filter_nil] at key
  rw [process_quarterly_changes]
  exact key

/-! ## Walk-Forward Simulator (`main.py`) -/

/-- One row of the scaled, labeled panel consumed by `main`'s prediction
loop: a date, a `Ticker`, the engineered `target`, and the remaining
(scaled) feature columns. -/
structure DataRow where
  date : Nat
  ticker : String
  target : ℚ
  feats : List ℚ
deriving DecidableEq

/-- The machine-learning collaborators of the loop, abstracted: each stage
corresponds to one `try/except` block of `main` and returns `none` when the
wrapped sklearn/xgboost call raises.  `featureSelection` covers the
random-forest fit plus `CummulativeImportanceSelector.select_features`;
`preparation` covers building `X_train_sel`/`X_test_sel`; `trainPredict`
covers the XGBoost fit and returns, per test row, the pair
(predicted class, predicted probability). -/
structure MLOracle where
  featureSelection : List DataRow → Option (List String)
  preparation : List String → List DataRow → List DataRow → Option Unit
  trainPredict : List String → List DataRow → List DataRow →
    Option (DataRow → ℚ × ℚ)

/-- Resolution of the active constituents for quarter `q` from the loaded
timeline: the row whose date equals `q` if there is one, otherwise the
latest row strictly before `q`, otherwise the empty list. -/
def activeConstituents (timeline : List (Nat × List String)) (q : Nat) :
    List String :=
  match timeline.filter (fun r => decide (r.1 = q)) with
  | r :: _ => r.2
  | [] =>
      match (sortStable (fun a b => decide (a.1 < b.1))
          (timeline.filter (fun r => decide (r.1 < q)))).getLast? with
      | some r => r.2
      | none => []

/-- `train_active = train_data[train_data["Ticker"].isin(active_constituents)]`. -/
def train_active (trainData : List DataRow) (active : List String) :
    List DataRow :=
  trainData.filter (fun r => decide (r.ticker ∈ active))

/-- The per-quarter test window: `q ≤ date < next_quarter` for all but the
final quarter, `q ≤ date` for the final one. -/
def test_quarter_rows (testData : List DataRow) (q : Nat) (next : Option Nat) :
    List DataRow :=
  match next with
  | some nq => testData.filter (fun r => decide (q ≤ r.date) && decide (r.date < nq))
  | none => testData.filter (fun r => decide (q ≤ r.date))

/-- `test_active`: the test window restricted to active tickers. -/
def test_active_rows (testData : List DataRow) (q : Nat) (next : Option Nat)
    (active : List String) : List DataRow :=
  (test_quarter_rows testData q next).filter (fun r => decide (r.ticker ∈ active))

/-- `sort_values(by=["target_pred", "target_pred_proba"], ascending=[False, False])`:
row `x` precedes row `e` when its (class, probability) score is
lexicographically larger. -/
def scoreGt (score : DataRow → ℚ × ℚ) (x e : DataRow) : Bool :=
  decide ((score e).1 < (score x).1) ||
    (decide ((score x).1 = (score e).1) && decide ((score e).2 < (score x).2))

/-- Result of the prediction loop: the ordered prediction log
(`predictions`), the final training frame (`train_data` after the loop),
and — for verification — the training set handed to the model fit at each
quarter that passed both emptiness checks. -/
structure WFResult where
  preds : List (Nat × List String)
  finalTrain : List DataRow
  trainSets : List (Nat × List DataRow)

/-- Attach a recorded per-quarter training set to a loop result. -/
def prependTrainSet (p : Nat × List DataRow) (r : WFResult) : WFResult :=
  ⟨r.preds, r.finalTrain, p :: r.trainSets⟩

/-- The `for i, quarter in enumerate(quarters)` prediction loop of `main`:
resolve the active universe, filter training and test data, skip the
quarter (leaving `train_data` untouched and emitting nothing) when either
filter is empty or any ML stage raises, otherwise rank the scored test
rows, emit the top-5 tickers, and fold the scored test rows back into the
training frame restricted to the active universe. -/
def wfLoop (oracle : MLOracle) (timeline : List (Nat × List String))
    (testData : List DataRow) : List DataRow → List Nat → WFResult
  | trainData, [] => ⟨[], trainData, []⟩
  | trainData, q :: rest =>
      let active := activeConstituents timeline q
      let ta := train_active trainData active
      if ta = [] then wfLoop oracle timeline testData trainData rest
      else
        let te := test_active_rows testData q rest.head? active
        if te = [] then wfLoop oracle timeline testData trainData rest
        else
          match oracle.featureSelection ta with
          | none => prependTrainSet (q, ta)
              (wfLoop oracle timeline testData trainData rest)
          | some feats =>
              match oracle.preparation feats ta te with
              | none => prependTrainSet (q, ta)
                  (wfLoop oracle timeline testData trainData rest)
              | some _ =>
                  match oracle.trainPredict feats ta te with
                  | none => prependTrainSet (q, ta)
                      (wfLoop oracle timeline testData trainData rest)
                  | some score =>
                      let sortedTest := sortStable (scoreGt score) te
                      let top5 := (sortedTest.map (fun r => r.ticker)).take 5
                      let r := wfLoop oracle timeline testData
                        (train_active trainData active ++ sortedTest) rest
                      ⟨(q, top5) :: r.preds, r.finalTrain, (q, ta) :: r.trainSets⟩

/-- `pd.date_range(start_dt, end_dt, freq='QS')` as used by `main.py`'s
`generate_quarterly_dates`: every quarter-start date within
`[start, end]`. -/
def quarter_range (start_d end_d : Nat) : List Nat :=
  ((List.range' (start_d / 10000) (end_d / 10000 + 1 - start_d / 10000)).flatMap
      quarterDatesOfYear).filter (fun d => decide (start_d ≤ d) && decide (d ≤ end_d))

/-- `generate_quarterly_dates(start_date, end_date)` of `main.py`: the
quarter starts within `[start, end]`, with the start date itself prepended
when it is not a quarter boundary. -/
def generate_quarterly_dates (start_d end_d : Nat) : List Nat :=
  if start_d ∈ quarter_range start_d end_d then quarter_range start_d end_d
  else start_d :: quarter_range start_d end_d

/-- The walk-forward simulation as assembled in `main`: the initial
training frame is the scaled panel strictly before `TRAIN_END_DATE`, the
test pool is the rest, and the loop runs over the quarter boundaries from
`TRAIN_END_DATE` through `END_DATE`. -/
def walk_forward (oracle : MLOracle) (timeline : List (Nat × List String))
    (scaled : List DataRow) (trainEnd endDate : Nat) : WFResult :=
  wfLoop oracle timeline (scaled.filter (fun r => decide (trainEnd ≤ r.date)))
    (scaled.filter (fun r => decide (r.date < trainEnd)))
    (generate_quarterly_dates trainEnd endDate)

theorem wfLoop_cons_skip_train (oracle : MLOracle) (timeline : List (Nat × List String))
    (testData trainData : List DataRow) (q : Nat) (rest : List Nat)
    (h : train_active trainData (activeConstituents timeline q) = []) :
    wfLoop oracle timeline testData trainData (q :: rest) =
      wfLoop oracle timeline testData trainData rest := by
  simp only [wfLoop, h, if_true]

theorem wfLoop_cons_skip_test (oracle : MLOracle) (timeline : List (Nat × List String))
    (testData trainData : List DataRow) (q : Nat) (rest : List Nat)
    (h1 : train_active trainData (activeConstituents timeline q) ≠ [])
    (h2 : test_active_rows testData q rest.head? (activeConstituents timeline q) = []) :
    wfLoop oracle timeline testData trainData (q :: rest) =
      wfLoop oracle timeline testData trainData rest := by
  simp only [wfLoop, if_neg h1, h2]
  simp

theorem wfLoop_cons_fsel_none (oracle : MLOracle) (timeline : List (Nat × List String))
    (testData trainData : List DataRow) (q : Nat) (rest : List Nat)
    (h1 : train_active trainData (activeConstituents timeline q) ≠ [])
    (h2 : test_active_rows testData q rest.head? (activeConstituents timeline q) ≠ [])
    (h3 : oracle.featureSelection
      (train_active trainData (activeConstituents timeline q)) = none) :
    wfLoop oracle timeline testData trainData (q :: rest) =
      prependTrainSet (q, train_active trainData (activeConstituents timeline q))
        (wfLoop oracle timeline testData trainData rest) := by
  simp only [wfLoop, if_neg h1, if_neg h2, h3]

theorem wfLoop_cons_prep_none (oracle : MLOracle) (timeline : List (Nat × List String))
    (testData trainData : List DataRow) (q : Nat) (rest : List Nat) (feats : List String)
    (h1 : train_active trainData (activeConstituents timeline q) ≠ [])
    (h2 : test_active_rows testData q rest.head? (activeConstituents timeline q) ≠ [])
    (h3 : oracle.featureSelection
      (train_active trainData (activeConstituents timeline q)) = some feats)
    (h4 : oracle.preparation feats
      (train_active trainData (activeConstituents timeline q))
      (test_active_rows testData q rest.head? (activeConstituents timeline q)) = none) :
    wfLoop oracle timeline testData trainData (q :: rest) =
      prependTrainSet (q, train_active trainData (activeConstituents timeline q))
        (wfLoop oracle timeline testData trainData rest) := by
  simp only [wfLoop, if_neg h1, if_neg h2, h3, h4]

theorem wfLoop_cons_predict_none (oracle : MLOracle) (timeline : List (Nat × List String))
    (testData trainData : List DataRow) (q : Nat) (rest : List Nat)
    (feats : List String) (u : Unit)
    (h1 : train_active trainData (activeConstituents timeline q) ≠ [])
    (h2 : test_active_rows testData q rest.head? (activeConstituents timeline q) ≠ [])
    (h3 : oracle.featureSelection
      (train_active trainData (activeConstituents timeline q)) = some feats)
    (h4 : oracle.preparation feats
      (train_active trainData (activeConstituents timeline q))
      (test_active_rows testData q rest.head? (activeConstituents timeline q)) = some u)
    (h5 : oracle.trainPredict feats
      (train_active trainData (activeConstituents timeline q))
      (test_active_rows testData q rest.head? (activeConstituents timeline q)) = none) :
    wfLoop oracle timeline testData trainData (q :: rest) =
      prependTrainSet (q, train_active trainData (activeConstituents timeline q))
        (wfLoop oracle timeline testData trainData rest) := by
  simp only [wfLoop, if_neg h1, if_neg h2, h3, h4, h5]

theorem wfLoop_cons_success (oracle : MLOracle) (timeline : List (Nat × List String))
    (testData trainData : List DataRow) (q : Nat) (rest : List Nat)
    (feats : List String) (u : Unit) (score : DataRow → ℚ × ℚ)
    (h1 : train_active trainData (activeConstituents timeline q) ≠ [])
    (h2 : test_active_rows testData q rest.head? (activeConstituents timeline q) ≠ [])
    (h3 : oracle.featureSelection
      (train_active trainData (activeConstituents timeline q)) = some feats)
    (h4 : oracle.preparation feats
      (train_active trainData (activeConstituents timeline q))
      (test_active_rows testData q rest.head? (activeConstituents timeline q)) = some u)
    (h5 : oracle.trainPredict feats
      (train_active trainData (activeConstituents timeline q))
      (test_active_rows testData q rest.head? (activeConstituents timeline q)) =
        some score) :
    wfLoop oracle timeline testData trainData (q :: rest) =
      ⟨(q, ((sortStable (scoreGt score)
            (test_active_rows testData q rest.head? (activeConstituents timeline q))).map
              (fun r => r.ticker)).take 5) ::
          (wfLoop oracle timeline testData
            (train_active trainData (activeConstituents timeline q) ++
              sortStable (scoreGt score)
                (test_active_rows testData q rest.head? (activeConstituents timeline q)))
            rest).preds,
        (wfLoop oracle timeline testData
          (train_active trainData (activeConstituents timeline q) ++
            sortStable (scoreGt score)
              (test_active_rows testData q rest.head? (activeConstituents timeline q)))
          rest).finalTrain,
        (q, train_active trainData (activeConstituents timeline q)) ::
          (wfLoop oracle timeline testData
            (train_active trainData (activeConstituents timeline q) ++
              sortStable (scoreGt score)
                (test_active_rows testData q rest.head? (activeConstituents timeline q)))
            rest).trainSets⟩ := by
  simp only [wfLoop, if_neg h1, if_neg h2, h3, h4, h5]

theorem pairwise_lt_quarter_range (s e : Nat) :
    (quarter_range s e).Pairwise (· < ·) :=
  List.Pairwise.filter _ (pairwise_flatMap_quarterDates _ _)

theorem mem_quarter_range_lb {s e q : Nat} (h : q ∈ quarter_range s e) :
    s ≤ q := by
  rw [quarter_range, List.mem_filter] at h
  have h2 := h.2
  rw [Bool.and_eq_true, decide_eq_true_eq, decide_eq_true_eq] at h2
  exact h2.1

theorem pairwise_lt_generate_quarterly_dates (s e : Nat) :
    (generate_quarterly_dates s e).Pairwise (· < ·) := by
  rw [generate_quarterly_dates]
  by_cases hs : s ∈ quarter_range s e
  · rw [if_pos hs]
    exact pairwise_lt_quarter_range s e
  · rw [if_neg hs, List.pairwise_cons]
    refine ⟨?_, pairwise_lt_quarter_range s e⟩
    intro d hd
    rcases lt_or_eq_of_le (mem_quarter_range_lb hd) with h | h
    · exact h
    · exact absurd (h ▸ hd) hs

theorem mem_generate_quarterly_dates_lb {s e q : Nat}
    (h : q ∈ generate_quarterly_dates s e) : s ≤ q := by
  rw [generate_quarterly_dates] at h
  by_cases hs : s ∈ quarter_range s e
  · rw [if_pos hs] at h
    exact mem_quarter_range_lb h
  · rw [if_neg hs] at h
    rcases List.mem_cons.mp h with h | h
    · exact h ▸ le_refl _
    · exact mem_quarter_range_lb h

theorem mem_test_quarter_rows_ub {testData : List DataRow} {q nq : Nat}
    {r : DataRow} (h : r ∈ test_quarter_rows testData q (some nq)) :
    r.date < nq := by
  rw [test_quarter_rows, List.mem_filter] at h
  have h2 := h.2
  rw [Bool.and_eq_true, decide_eq_true_eq, decide_eq_true_eq] at h2
  exact h2.2

theorem wfLoop_no_lookahead (oracle : MLOracle)
    (timeline : List (Nat × List String)) (testData : List DataRow) :
    ∀ (qs : List Nat) (trainData : List DataRow),
      qs.Pairwise (· < ·) →
      (∀ r ∈ trainData, ∀ q ∈ qs, r.date < q) →
      ∀ p ∈ (wfLoop oracle timeline testData trainData qs).trainSets,
        ∀ r ∈ p.2, r.date < p.1 := by
  intro qs
  induction qs with
  | nil =>
      intro trainData _ _ p hp
      simp [wfLoop] at hp
  | cons q rest ih =>
      intro trainData hq hrows
      have hqhead := (List.pairwise_cons.mp hq).1
      have hqrest := (List.pairwise_cons.mp hq).2
      have hrows' : ∀ r ∈ trainData, ∀ q' ∈ rest, r.date < q' :=
        fun r hr q' hq'' => hrows r hr q' (List.mem_cons_of_mem _ hq'')
      have hta : ∀ r ∈ train_active trainData (activeConstituents timeline q),
          r.date < q := fun r hr =>
        hrows r (List.mem_filter.mp hr).1 q (List.mem_cons_self _ _)
      by_cases h1 : train_active trainData (activeConstituents timeline q) = []
      · rw [wfLoop_cons_skip_train oracle timeline testData trainData q rest h1]
        exact ih trainData hqrest hrows'
      · by_cases h2 : test_active_rows testData q rest.head?
            (activeConstituents timeline q) = []
        · rw [wfLoop_cons_skip_test oracle timeline testData trainData q rest h1 h2]
          exact ih trainData hqrest hrows'
        · cases h3 : oracle.featureSelection
              (train_active trainData (activeConstituents timeline q)) with
          | none =>
              rw [wfLoop_cons_fsel_none oracle timeline testData trainData q rest
                h1 h2 h3]
              intro p hp
              rcases List.mem_cons.mp hp with hp | hp
              · rw [hp]
                exact hta
              · exact ih trainData hqrest hrows' p hp
          | some feats =>
              cases h4 : oracle.preparation feats
                  (train_active trainData (activeConstituents timeline q))
                  (test_active_rows testData q rest.head?
                    (activeConstituents timeline q)) with
              | none =>
                  rw [wfLoop_cons_prep_none oracle timeline testData trainData q rest
                    feats h1 h2 h3 h4]
                  intro p hp
                  rcases List.mem_cons.mp hp with hp | hp
                  · rw [hp]
                    exact hta
                  · exact ih trainData hqrest hrows' p hp
              | some u =>
                  cases h5 : oracle.trainPredict feats
                      (train_active trainData (activeConstituents timeline q))
                      (test_active_rows testData q rest.head?
                        (activeConstituents timeline q)) with
                  | none =>
                      rw [wfLoop_cons_predict_none oracle timeline testData trainData
                        q rest feats u h1 h2 h3 h4 h5]
                      intro p hp
                      rcases List.mem_cons.mp hp with hp | hp
                      · rw [hp]
                        exact hta
                      · exact ih trainData hqrest hrows' p hp
                  | some score =>
                      rw [wfLoop_cons_success oracle timeline testData trainData
                        q rest feats u score h1 h2 h3 h4 h5]
                      intro p hp
                      rcases List.mem_cons.mp hp with hp | hp
                      · rw [hp]
                        exact hta
                      · refine ih _ hqrest ?_ p hp
                        intro r hr q' hq'
                        rcases List.mem_append.mp hr with hr | hr
                        · exact hrows' r (List.mem_filter.mp hr).1 q' hq'
                        · have hte := (mem_sortStable _ r _).mp hr
                          have htq := (List.mem_filter.mp hte).1
                          cases rest with
                          | nil => cases hq'
                          | cons nq rest' =>
                              have hlt : r.date < nq := by
                                have : rest'.head? = rest'.head? := rfl
                                exact mem_test_quarter_rows_ub
                                  (by simpa using htq)
                              rcases List.mem_cons.mp hq' with hq' | hq'
                              · rw [hq']
                                exact hlt
                              · exact lt_trans hlt
                                  ((List.pairwise_cons.mp hqrest).1 q' hq')

/-- **C2**: no look-ahead in the walk-forward simulator.  At every quarter
boundary `q` of the prediction loop, every row of the training set used to
fit the feature selector and the predictive model at `q` has date `< q` —
including after the per-quarter update that re-filters the training rows
to the active universe and appends the just-scored test rows. -/
theorem no_lookahead_walk_forward (oracle : MLOracle)
    (timeline : List (Nat × List String)) (scaled : List DataRow)
    (trainEnd endDate : Nat) :
    ∀ p ∈ (walk_forward oracle timeline scaled trainEnd endDate).trainSets,
      ∀ r ∈ p.2, r.date < p.1 := by
  apply wfLoop_no_lookahead
  · exact pairwise_lt_generate_quarterly_dates trainEnd endDate
  · intro r hr q hq
    have h1 := (List.mem_filter.mp hr).2
    rw [decide_eq_true_eq] at h1
    have h2 := mem_generate_quarterly_dates_lb hq
    omega

theorem wfLoop_preds_quarters (oracle : MLOracle)
    (timeline : List (Nat × List String)) (testData : List DataRow) :
    ∀ (qs : List Nat) (trainData : List DataRow),
      ∀ p ∈ (wfLoop oracle timeline testData trainData qs).preds, p.1 ∈ qs := by
  intro qs
  induction qs with
  | nil =>
      intro trainData p hp
      simp [wfLoop] at hp
  | cons q rest ih =>
      intro trainData p hp
      by_cases h1 : train_active trainData (activeConstituents timeline q) = []
      · rw [wfLoop_cons_skip_train oracle timeline testData trainData q rest h1] at hp
        exact List.mem_cons_of_mem _ (ih trainData p hp)
      · by_cases h2 : test_active_rows testData q rest.head?
            (activeConstituents timeline q) = []
        · rw [wfLoop_cons_skip_test oracle timeline testData trainData q rest
            h1 h2] at hp
          exact List.mem_cons_of_mem _ (ih trainData p hp)
        · cases h3 : oracle.featureSelection
              (train_active trainData (activeConstituents timeline q)) with
          | none =>
              rw [wfLoop_cons_fsel_none oracle timeline testData trainData q rest
                h1 h2 h3] at hp
              exact List.mem_cons_of_mem _ (ih trainData p hp)
          | some feats =>
              cases h4 : oracle.preparation feats
                  (train_active trainData (activeConstituents timeline q))
                  (test_active_rows testData q rest.head?
                    (activeConstituents timeline q)) with
              | none =>
                  rw [wfLoop_cons_prep_none oracle timeline testData trainData q rest
                    feats h1 h2 h3 h4] at hp
                  exact List.mem_cons_of_mem _ (ih trainData p hp)
              | some u =>
                  cases h5 : oracle.trainPredict feats
                      (train_active trainData (activeConstituents timeline q))
                      (test_active_rows testData q rest.head?
                        (activeConstituents timeline q)) with
                  | none =>
                      rw [wfLoop_cons_predict_none oracle timeline testData trainData
                        q rest feats u h1 h2 h3 h4 h5] at hp
                      exact List.mem_cons_of_mem _ (ih trainData p hp)
                  | some score =>
                      rw [wfLoop_cons_success oracle timeline testData trainData
                        q rest feats u score h1 h2 h3 h4 h5] at hp
                      rcases List.mem_cons.mp hp with hp | hp
                      · rw [hp]
                        exact List.mem_cons_self _ _
                      · exact List.mem_cons_of_mem _ (ih _ p hp)

/-- The conditions under which `main`'s loop skips quarter `q` (with
`next` the following boundary, if any): empty filtered training set, empty
filtered test set, or an exception (`none`) from feature selection, from
the selected-column preparation, or from model training/prediction. -/
def quarterSkips (oracle : MLOracle) (timeline : List (Nat × List String))
    (testData trainData : List DataRow) (q : Nat) (next : Option Nat) : Prop :=
  train_active trainData (activeConstituents timeline q) = [] ∨
  test_active_rows testData q next (activeConstituents timeline q) = [] ∨
  oracle.featureSelection (train_active trainData (activeConstituents timeline q)) =
    none ∨
  (∃ feats, oracle.featureSelection
      (train_active trainData (activeConstituents timeline q)) = some feats ∧
    (oracle.preparation feats (train_active trainData (activeConstituents timeline q))
        (test_active_rows testData q next (activeConstituents timeline q)) = none ∨
      ∃ u, oracle.preparation feats
          (train_active trainData (activeConstituents timeline q))
          (test_active_rows testData q next (activeConstituents timeline q)) =
            some u ∧
        oracle.trainPredict feats
          (train_active trainData (activeConstituents timeline q))
          (test_active_rows testData q next (activeConstituents timeline q)) = none))

/-- **C10**: per-quarter skip atomicity.  Whenever the skip condition holds
at quarter `q` (empty filtered training or test set, or an exception in
feature selection, preparation, or training/prediction), the loop emits no
prediction record for `q`, leaves the training state unchanged, and
proceeds with the remaining quarters exactly as if `q` were absent. -/
theorem quarter_skip_atomic (oracle : MLOracle)
    (timeline : List (Nat × List String)) (testData trainData : List DataRow)
    (q : Nat) (rest : List Nat)
    (h : quarterSkips oracle timeline testData trainData q rest.head?) :
    (wfLoop oracle timeline testData trainData (q :: rest)).preds =
      (wfLoop oracle timeline testData trainData rest).preds ∧
    (wfLoop oracle timeline testData trainData (q :: rest)).finalTrain =
      (wfLoop oracle timeline testData trainData rest).finalTrain ∧
    (q ∉ rest → ∀ p ∈ (wfLoop oracle timeline testData trainData (q :: rest)).preds,
      p.1 ≠ q) := by
  have main : (wfLoop oracle timeline testData trainData (q :: rest)).preds =
      (wfLoop oracle timeline testData trainData rest).preds ∧
      (wfLoop oracle timeline testData trainData (q :: rest)).finalTrain =
        (wfLoop oracle timeline testData trainData rest).finalTrain := by
    by_cases h1 : train_active trainData (activeConstituents timeline q) = []
    · rw [wfLoop_cons_skip_train oracle timeline testData trainData q rest h1]
      exact ⟨rfl, rfl⟩
    · by_cases h2 : test_active_rows testData q rest.head?
          (activeConstituents timeline q) = []
      · rw [wfLoop_cons_skip_test oracle timeline testData trainData q rest h1 h2]
        exact ⟨rfl, rfl⟩
      · cases h3 : oracle.featureSelection
            (train_active trainData (activeConstituents timeline q)) with
        | none =>
            rw [wfLoop_cons_fsel_none oracle timeline testData trainData q rest
              h1 h2 h3]
            exact ⟨rfl, rfl⟩
        | some feats =>
            cases h4 : oracle.preparation feats
                (train_active trainData (activeConstituents timeline q))
                (test_active_rows testData q rest.head?
                  (activeConstituents timeline q)) with
            | none =>
                rw [wfLoop_cons_prep_none oracle timeline testData trainData q rest
                  feats h1 h2 h3 h4]
                exact ⟨rfl, rfl⟩
            | some u =>
                cases h5 : oracle.trainPredict feats
                    (train_active trainData (activeConstituents timeline q))
                    (test_active_rows testData q rest.head?
                      (activeConstituents timeline q)) with
                | none =>
                    rw [wfLoop_cons_predict_none oracle timeline testData trainData
                      q rest feats u h1 h2 h3 h4 h5]
                    exact ⟨rfl, rfl⟩
                | some score =>
                    exfalso
                    rcases h with h | h | h | ⟨feats', hf, h⟩
                    · exact h1 h
                    · exact h2 h
                    · rw [h3] at h
                      cases h
                    · rw [h3] at hf
                      injection hf with hf
                      rw [← hf] at h
                      rcases h with h | ⟨u', hu, h⟩
                      · rw [h4] at h
                        cases h
                      · rw [h5] at h
                        cases h
  refine ⟨main.1, main.2, ?_⟩
  intro hq p hp
  rw [main.1] at hp
  intro hpq
  exact hq (hpq ▸ wfLoop_preds_quarters oracle timeline testData rest trainData p hp)

/-- An oracle whose every stage raises; used to witness the skip theorem. -/
def failingOracle : MLOracle :=
  ⟨fun _ => none, fun _ _ _ => none, fun _ _ _ => none⟩

/-- Witness for C10: a concrete skipped quarter (empty training data). -/
theorem quarter_skip_atomic_witness :
    quarterSkips failingOracle [] [] [] 20230101 ([] : List Nat).head? ∧
    ((wfLoop failingOracle [] [] [] (20230101 :: [])).preds =
        (wfLoop failingOracle [] [] [] []).preds ∧
      (wfLoop failingOracle [] [] [] (20230101 :: [])).finalTrain =
        (wfLoop failingOracle [] [] [] []).finalTrain ∧
      (20230101 ∉ ([] : List Nat) →
        ∀ p ∈ (wfLoop failingOracle [] [] [] (20230101 :: [])).preds,
          p.1 ≠ 20230101)) :=
  ⟨Or.inl rfl, quarter_skip_atomic failingOracle [] [] [] 20230101 [] (Or.inl rfl)⟩

/-! ## Panel Merge/Alignment Engine (`processing_tickers.py`) -/

/-- One row of a factor-category table: a date and the row's (possibly
missing) value.  pandas operates column-wise and independently per column
(`ffill` and `merge` act on each value column separately), so a single
generic value column captures the per-column semantics of the merge. -/
structure CatRow where
  date : Nat
  val : Option ℚ
deriving DecidableEq

/-- `factor_values.sort_values(by="date")`. -/
def sortValuesByDate (rows : List CatRow) : List CatRow :=
  sortStable (fun a b => decide (a.date < b.date)) rows

/-- `DataFrame.ffill()`: replace each missing value by the last
non-missing value above it, threading the carried value downward. -/
def ffillRows : Option ℚ → List CatRow → List CatRow
  | _, [] => []
  | carry, r :: rs =>
      match r.val with
      | some v => ⟨r.date, some v⟩ :: ffillRows (some v) rs
      | none => ⟨r.date, carry⟩ :: ffillRows carry rs

/-- The value carried by `rows` at exactly date `d` (first matching row),
`none` when the date is absent or its cell is missing. -/
def lookupVal (rows : List CatRow) (d : Nat) : Option ℚ :=
  match rows.find? (fun r => decide (r.date = d)) with
  | some r => r.val
  | none => none

/-- `pd.merge(merged_factors[["date"]], factor_values, on="date",
how="outer")`: the union of the two date axes, with the join keys sorted
lexicographically (the documented pandas behaviour for outer joins);
dates present only in the left frame carry missing values. -/
def outer_join_dates (axis : List Nat) (rows : List CatRow) : List CatRow :=
  (sortStable (fun a b => decide (a < b))
      ((axis ++ rows.map (fun r => r.date)).dedup)).map
    (fun d => ⟨d, lookupVal rows d⟩)

/-- The per-category body of `process_ticker`'s merge loop:
`factor_values.sort_values(by="date").ffill()`, then the outer join
against the accumulated date axis followed by another `.ffill()`. -/
def fill_category (axis : List Nat) (cat : List CatRow) : List CatRow :=
  ffillRows none (outer_join_dates axis (ffillRows none (sortValuesByDate cat)))

/-- `pd.merge(merged_factors, factor_values, on="date", how="left")`: each
row of the running merged panel keeps its date and gains the filled
category's value at that date as a new column. -/
def merge_step (merged : List (Nat × List (Option ℚ))) (cat : List CatRow) :
    List (Nat × List (Option ℚ)) :=
  let filled := fill_category (merged.map Prod.fst) cat
  merged.map (fun r => (r.1, r.2 ++ [lookupVal filled r.1]))

/-- `process_ticker`'s merge pipeline: start from the quality date axis
(`merged_factors = quality_factors[["date"]]`), left-join each valid
category, then keep only rows with `start_date ≤ date ≤ end_date`.  The
constant `Ticker` column is omitted; `cats` are the categories that pass
the `isinstance`/`"date" in columns` guard. -/
def process_ticker (axis : List Nat) (cats : List (List CatRow))
    (start_d end_d : Nat) : List (Nat × List (Option ℚ)) :=
  (cats.foldl merge_step (axis.map (fun d => (d, [])))).filter
    (fun r => decide (start_d ≤ r.1) && decide (r.1 ≤ end_d))

/-- Specification-side value: the most recent known value of category
`cat` at date `d` — the value of the last date-sorted source row with
date `≤ d` that carries a value. -/
def mostRecentVal (cat : List CatRow) (d : Nat) : Option ℚ :=
  ((sortValuesByDate cat).filter (fun r => decide (r.date ≤ d))).reverse.findSome?
    (fun r => r.val)

/-- The last known value of `rows` at date `d` (rows assumed in date
order): scan the rows with date `≤ d` from the latest backwards and return
the first present value. -/
def lastVal (rows : List CatRow) (d : Nat) : Option ℚ :=
  (rows.filter (fun r => decide (r.date ≤ d))).reverse.findSome? (fun r => r.val)

theorem perm_insertStable {α : Type} (lt : α → α → Bool) (e : α) :
    ∀ l : List α, (insertStable lt e l).Perm (e :: l) := by
  intro l
  induction l with
  | nil => simp [insertStable]
  | cons x xs ih =>
      by_cases h : lt x e = true
      · simp only [insertStable, h, if_true]
        exact (ih.cons x).trans (List.Perm.swap e x xs)
      · simp [insertStable, h]

theorem perm_sortStable {α : Type} (lt : α → α → Bool) :
    ∀ l : List α, (sortStable lt l).Perm l := by
  intro l
  induction l with
  | nil => simp [sortStable]
  | cons x xs ih =>
      simp only [sortStable, List.foldr_cons]
      exact (perm_insertStable lt x _).trans
        ((show (sortStable lt xs).Perm xs from ih).cons x)

theorem nodup_sortStable {α : Type} (lt : α → α → Bool) (l : List α)
    (h : l.Nodup) : (sortStable lt l).Nodup :=
  ((perm_sortStable lt l).nodup_iff).mpr h

theorem ffillRows_cons (carry : Option ℚ) (r : CatRow) (rs : List CatRow) :
    ffillRows carry (r :: rs) =
      ⟨r.date, r.val.or carry⟩ :: ffillRows (r.val.or carry) rs := by
  cases hv : r.val with
  | some v => simp [ffillRows, hv]
  | none => simp [ffillRows, hv]

theorem map_date_ffillRows (carry : Option ℚ) :
    ∀ rows : List CatRow,
      (ffillRows carry rows).map (fun r => r.date) = rows.map (fun r => r.date) := by
  intro rows
  induction rows generalizing carry with
  | nil => simp [ffillRows]
  | cons r rs ih => rw [ffillRows_cons, List.map_cons, List.map_cons, ih]

theorem lookupVal_cons (x : CatRow) (xs : List CatRow) (d : Nat) :
    lookupVal (x :: xs) d = if x.date = d then x.val else lookupVal xs d := by
  by_cases h : x.date = d
  · simp [lookupVal, List.find?, h]
  · simp [lookupVal, List.find?, h]

theorem findSome?_append_or {α β : Type} (f : α → Option β) :
    ∀ l1 l2 : List α,
      List.findSome? f (l1 ++ l2) = (List.findSome? f l1).or (List.findSome? f l2) := by
  intro l1 l2
  induction l1 with
  | nil => simp
  | cons a l1 ih =>
      rw [List.cons_append]
      cases hf : f a with
      | some b => simp [List.findSome?_cons, hf]
      | none => simp [List.findSome?_cons, hf, ih]

theorem lastVal_cons (x : CatRow) (xs : List CatRow) (d : Nat) :
    lastVal (x :: xs) d =
      if x.date ≤ d then (lastVal xs d).or x.val else lastVal xs d := by
  by_cases h : x.date ≤ d
  · rw [lastVal, List.filter_cons, if_pos (by simpa using h), List.reverse_cons,
      findSome?_append_or, if_pos h]
    rw [lastVal]
    congr 1
    simp only [List.findSome?_cons, List.findSome?_nil]
    cases x.val <;> rfl
  · rw [lastVal, List.filter_cons, if_neg (by simpa using h), if_neg h, lastVal]

theorem lastVal_filter_isSome (d : Nat) :
    ∀ rows : List CatRow,
      lastVal rows d = lastVal (rows.filter (fun r => r.val.isSome)) d := by
  intro rows
  induction rows with
  | nil => rfl
  | cons x xs ih =>
      cases hv : x.val with
      | some v =>
          simp only [List.filter_cons, hv, Option.isSome_some, if_true,
            lastVal_cons, ih]
      | none =>
          simp only [List.filter_cons, hv, Option.isSome_none,
            Bool.false_eq_true, if_false, lastVal_cons, ih]
          by_cases h : x.date ≤ d
          · rw [if_pos h, Option.or_none]
          · rw [if_neg h]

theorem lastVal_eq_none_of_filter_nil {rows : List CatRow} {d : Nat}
    (h : rows.filter (fun r => decide (r.date ≤ d)) = []) :
    lastVal rows d = none := by
  rw [lastVal, h]
  rfl

theorem lookupVal_ffillRows (d : Nat) :
    ∀ (L : List CatRow) (carry : Option ℚ),
      L.Pairwise (fun a b => a.date < b.date) →
      d ∈ L.map (fun r => r.date) →
      lookupVal (ffillRows carry L) d = (lastVal L d).or carry := by
  intro L
  induction L with
  | nil =>
      intro carry _ hd
      simp at hd
  | cons r rs ih =>
      intro carry hp hd
      rw [ffillRows_cons, lookupVal_cons]
      by_cases h : r.date = d
      · rw [if_pos h, lastVal_cons, if_pos (le_of_eq h)]
        have hrsf : rs.filter (fun r' => decide (r'.date ≤ d)) = [] := by
          apply filter_eq_nil_of_forall_false
          intro b hb
          have hlt := (List.pairwise_cons.mp hp).1 b hb
          rw [decide_eq_false_iff_not]
          omega
        rw [lastVal_eq_none_of_filter_nil hrsf, Option.none_or]
      · rw [if_neg h]
        have hd' : d ∈ rs.map (fun r => r.date) := by
          rw [List.map_cons, List.mem_cons] at hd
          rcases hd with hd | hd
          · exact absurd hd.symm h
          · exact hd
        rw [ih (r.val.or carry) (List.pairwise_cons.mp hp).2 hd', lastVal_cons]
        by_cases h2 : r.date ≤ d
        · rw [if_pos h2, Option.or_assoc]
        · exfalso
          obtain ⟨r', hr', hr'd⟩ := List.mem_map.mp hd'
          have := (List.pairwise_cons.mp hp).1 r' hr'
          omega

theorem lastVal_ffillRows (d : Nat) :
    ∀ (L : List CatRow) (carry : Option ℚ),
      L.Pairwise (fun a b => a.date < b.date) →
      lastVal (ffillRows carry L) d =
        if L.filter (fun r => decide (r.date ≤ d)) = [] then none
        else (lastVal L d).or carry := by
  intro L
  induction L with
  | nil =>
      intro carry _
      simp [ffillRows, lastVal]
  | cons r rs ih =>
      intro carry hp
      have htail := (List.pairwise_cons.mp hp).2
      rw [ffillRows_cons, lastVal_cons, ih (r.val.or carry) htail]
      by_cases h : r.date ≤ d
      · have hfc : List.filter (fun x => decide (x.date ≤ d)) (r :: rs) =
            r :: List.filter (fun x => decide (x.date ≤ d)) rs := by
          simp [List.filter_cons, h]
        rw [if_pos h, hfc, if_neg (List.cons_ne_nil _ _), lastVal_cons, if_pos h]
        by_cases h2 : List.filter (fun x => decide (x.date ≤ d)) rs = []
        · rw [if_pos h2, lastVal_eq_none_of_filter_nil h2, Option.none_or,
            Option.none_or]
        · rw [if_neg h2, Option.or_assoc, Option.or_self, Option.or_assoc]
      · have hrsf : List.filter (fun x => decide (x.date ≤ d)) rs = [] := by
          apply filter_eq_nil_of_forall_false
          intro b hb
          have hlt := (List.pairwise_cons.mp hp).1 b hb
          rw [decide_eq_false_iff_not]
          omega
        have hfc : List.filter (fun x => decide (x.date ≤ d)) (r :: rs) =
            List.filter (fun x => decide (x.date ≤ d)) rs := by
          simp [List.filter_cons, h]
        rw [if_neg h, hfc, hrsf, if_pos rfl, if_pos rfl]

theorem lastVal_ffill_none (d : Nat) (L : List CatRow)
    (hp : L.Pairwise (fun a b => a.date < b.date)) :
    lastVal (ffillRows none L) d = lastVal L d := by
  rw [lastVal_ffillRows d L none hp]
  by_cases h : L.filter (fun r => decide (r.date ≤ d)) = []
  · rw [if_pos h, lastVal_eq_none_of_filter_nil h]
  · rw [if_neg h, Option.or_none]

theorem pairwise_date_lt_of_le_nodup (L : List CatRow)
    (hle : L.Pairwise (fun a b => a.date ≤ b.date))
    (hnd : (L.map (fun r => r.date)).Nodup) :
    L.Pairwise (fun a b => a.date < b.date) := by
  have hne : L.Pairwise (fun a b => a.date ≠ b.date) := List.pairwise_map.mp hnd
  exact (hle.and hne).imp (fun h => lt_of_le_of_ne h.1 h.2)

theorem eq_of_pairwise_date_lt_of_mem_iff :
    ∀ L1 L2 : List CatRow,
      L1.Pairwise (fun a b => a.date < b.date) →
      L2.Pairwise (fun a b => a.date < b.date) →
      (∀ r, r ∈ L1 ↔ r ∈ L2) → L1 = L2 := by
  intro L1
  induction L1 with
  | nil =>
      intro L2 _ _ hmem
      cases L2 with
      | nil => rfl
      | cons y ys =>
          exact absurd ((hmem y).mpr (List.mem_cons_self y ys)) (List.not_mem_nil y)
  | cons x xs ih =>
      intro L2 h1 h2 hmem
      cases L2 with
      | nil => exact absurd ((hmem x).mp (List.mem_cons_self x xs)) (List.not_mem_nil x)
      | cons y ys =>
          have hxy : x = y := by
            have hx2 := (hmem x).mp (List.mem_cons_self x xs)
            have hy1 := (hmem y).mpr (List.mem_cons_self y ys)
            rcases List.mem_cons.mp hx2 with hc | hxys
            · exact hc
            · rcases List.mem_cons.mp hy1 with hc | hyxs
              · exact hc.symm
              · have hlt1 := (List.pairwise_cons.mp h2).1 x hxys
                have hlt2 := (List.pairwise_cons.mp h1).1 y hyxs
                omega
          subst hxy
          have htails : ∀ r, r ∈ xs ↔ r ∈ ys := by
            intro r
            constructor
            · intro hr
              have hr2 := (hmem r).mp (List.mem_cons_of_mem x hr)
              rcases List.mem_cons.mp hr2 with hc | hys
              · subst hc
                have := (List.pairwise_cons.mp h1).1 r hr
                omega
              · exact hys
            · intro hr
              have hr1 := (hmem r).mpr (List.mem_cons_of_mem x hr)
              rcases List.mem_cons.mp hr1 with hc | hxs
              · subst hc
                have := (List.pairwise_cons.mp h2).1 r hr
                omega
              · exact hxs
          rw [ih ys (List.pairwise_cons.mp h1).2 (List.pairwise_cons.mp h2).2 htails]

theorem lookupVal_eq_some_iff {rows : List CatRow}
    (hnd : (rows.map (fun r => r.date)).Nodup) (d : Nat) (v : ℚ) :
    lookupVal rows d = some v ↔ (⟨d, some v⟩ : CatRow) ∈ rows := by
  constructor
  · intro h
    rw [lookupVal] at h
    cases hf : rows.find? (fun r => decide (r.date = d)) with
    | none => rw [hf] at h; cases h
    | some r0 =>
        rw [hf] at h
        have hr0 := List.mem_of_find?_eq_some hf
        have hp := List.find?_some hf
        rw [decide_eq_true_eq] at hp
        have hr : r0 = ⟨d, some v⟩ := by
          cases r0 with
          | mk dt vl =>
              simp only at h hp
              rw [hp] at *
              rw [h]
        rw [← hr]
        exact hr0
  · intro h
    rw [lookupVal]
    cases hf : rows.find? (fun r => decide (r.date = d)) with
    | none =>
        exfalso
        have hs : (rows.find? (fun r => decide (r.date = d))).isSome :=
          List.find?_isSome.mpr ⟨⟨d, some v⟩, h, by simp⟩
        rw [hf] at hs
        cases hs
    | some r0 =>
        have hr0 := List.mem_of_find?_eq_some hf
        have hp := List.find?_some hf
        rw [decide_eq_true_eq] at hp
        have hr : r0 = ⟨d, some v⟩ :=
          List.inj_on_of_nodup_map hnd hr0 h (by simpa using hp)
        rw [hr]

theorem outer_join_ffill_lookup (axis : List Nat) (c1 : List CatRow) (d : Nat)
    (hd : d ∈ axis)
    (hlt : c1.Pairwise (fun a b => a.date < b.date))
    (hnd : (c1.map (fun r => r.date)).Nodup) :
    lookupVal (ffillRows none (outer_join_dates axis c1)) d = lastVal c1 d := by
  rw [outer_join_dates]
  set U := sortStable (fun a b => decide (a < b))
    ((axis ++ c1.map (fun r => r.date)).dedup) with hU
  have hU_le : U.Pairwise (· ≤ ·) := by
    rw [hU]
    refine pairwise_sortStable _ _ ?_ ?_ ?_ _
    · intro a b c hab hbc
      exact le_trans hab hbc
    · intro a b h
      rw [decide_eq_true_eq] at h
      exact le_of_lt h
    · intro a b h
      rw [decide_eq_false_iff_not] at h
      exact le_of_not_lt h
  have hU_nd : U.Nodup := by
    rw [hU]
    exact nodup_sortStable _ _ (List.nodup_dedup _)
  have hU_lt : U.Pairwise (· < ·) :=
    (hU_le.and hU_nd).imp fun h => lt_of_le_of_ne h.1 h.2
  have hmem_U : ∀ x : Nat, x ∈ U ↔ x ∈ axis ∨ x ∈ c1.map (fun r => r.date) := by
    intro x
    rw [hU, mem_sortStable, List.mem_dedup, List.mem_append]
  have hlt_un : (U.map fun d' => (⟨d', lookupVal c1 d'⟩ : CatRow)).Pairwise
      (fun a b => a.date < b.date) := List.pairwise_map.mpr hU_lt
  have hmapdate : (U.map fun d' => (⟨d', lookupVal c1 d'⟩ : CatRow)).map
      (fun r => r.date) = U := by
    rw [List.map_map]
    exact List.map_id' U
  have hfilters : (U.map fun d' => (⟨d', lookupVal c1 d'⟩ : CatRow)).filter
      (fun r => r.val.isSome) = c1.filter (fun r => r.val.isSome) := by
    apply eq_of_pairwise_date_lt_of_mem_iff
    · exact List.Pairwise.filter _ hlt_un
    · exact List.Pairwise.filter _ hlt
    · intro r
      rw [List.mem_filter, List.mem_filter]
      constructor
      · rintro ⟨hrU, hsome⟩
        refine ⟨?_, hsome⟩
        obtain ⟨d', _, heq⟩ := List.mem_map.mp hrU
        obtain ⟨v, hv⟩ := Option.isSome_iff_exists.mp hsome
        have hrd : r.date = d' := by rw [← heq]
        have hrv : lookupVal c1 d' = some v := by
          have : r.val = lookupVal c1 d' := by rw [← heq]
          rw [← this, hv]
        have hre : r = ⟨d', some v⟩ := by
          calc r = ⟨r.date, r.val⟩ := rfl
            _ = ⟨d', some v⟩ := by rw [hrd, hv]
        rw [hre]
        exact (lookupVal_eq_some_iff hnd d' v).mp hrv
      · rintro ⟨hrc1, hsome⟩
        refine ⟨?_, hsome⟩
        obtain ⟨v, hv⟩ := Option.isSome_iff_exists.mp hsome
        have hdU : r.date ∈ U :=
          (hmem_U r.date).mpr (Or.inr (List.mem_map_of_mem _ hrc1))
        refine List.mem_map.mpr ⟨r.date, hdU, ?_⟩
        have hrv : lookupVal c1 r.date = some v := by
          refine (lookupVal_eq_some_iff hnd r.date v).mpr ?_
          have hre : r = ⟨r.date, some v⟩ := by
            calc r = ⟨r.date, r.val⟩ := rfl
              _ = ⟨r.date, some v⟩ := by rw [hv]
          rw [← hre]
          exact hrc1
        calc (⟨r.date, lookupVal c1 r.date⟩ : CatRow)
            = ⟨r.date, some v⟩ := by rw [hrv]
          _ = ⟨r.date, r.val⟩ := by rw [hv]
          _ = r := rfl
  rw [lookupVal_ffillRows d _ none hlt_un
    (by rw [hmapdate]; exact (hmem_U d).mpr (Or.inl hd)), Option.or_none,
    lastVal_filter_isSome d (U.map fun d' => (⟨d', lookupVal c1 d'⟩ : CatRow)),
    hfilters, ← lastVal_filter_isSome d c1]

theorem fill_category_lookup (axis : List Nat) (cat : List CatRow) (d : Nat)
    (hd : d ∈ axis) (hnd : (cat.map (fun r => r.date)).Nodup) :
    lookupVal (fill_category axis cat) d = mostRecentVal cat d := by
  have hle_sc : (sortValuesByDate cat).Pairwise (fun a b => a.date ≤ b.date) := by
    refine pairwise_sortStable _ _ ?_ ?_ ?_ cat
    · intro a b c hab hbc
      exact le_trans hab hbc
    · intro a b h
      rw [decide_eq_true_eq] at h
      exact le_of_lt h
    · intro a b h
      rw [decide_eq_false_iff_not] at h
      exact le_of_not_lt h
  have hnd_sc : ((sortValuesByDate cat).map (fun r => r.date)).Nodup :=
    (((perm_sortStable _ cat).map (fun r => r.date)).nodup_iff).mpr hnd
  have hlt_sc := pairwise_date_lt_of_le_nodup _ hle_sc hnd_sc
  have hdates_c1 : (ffillRows none (sortValuesByDate cat)).map (fun r => r.date) =
      (sortValuesByDate cat).map (fun r => r.date) := map_date_ffillRows none _
  have hlt_c1 : (ffillRows none (sortValuesByDate cat)).Pairwise
      (fun a b => a.date < b.date) := by
    refine List.pairwise_map.mp (?_ :
      ((ffillRows none (sortValuesByDate cat)).map (fun r => r.date)).Pairwise (· < ·))
    rw [hdates_c1]
    exact List.pairwise_map.mpr hlt_sc
  have hnd_c1 : ((ffillRows none (sortValuesByDate cat)).map (fun r => r.date)).Nodup := by
    rw [hdates_c1]
    exact hnd_sc
  rw [fill_category, outer_join_ffill_lookup axis _ d hd hlt_c1 hnd_c1,
    lastVal_ffill_none d _ hlt_sc]
  rfl

theorem foldl_merge_step (axis : List Nat) :
    ∀ (cats : List (List CatRow)) (g : Nat → List (Option ℚ)),
      cats.foldl merge_step (axis.map (fun d => (d, g d))) =
        axis.map (fun d =>
          (d, g d ++ cats.map (fun c => lookupVal (fill_category axis c) d))) := by
  intro cats
  induction cats with
  | nil =>
      intro g
      simp
  | cons c cs ih =>
      intro g
      rw [List.foldl_cons]
      have hax : (axis.map (fun d => (d, g d))).map Prod.fst = axis := by
        rw [List.map_map]
        exact List.map_id' axis
      have hms : merge_step (axis.map (fun d => (d, g d))) c =
          axis.map (fun d => (d, g d ++ [lookupVal (fill_category axis c) d])) := by
        simp only [merge_step]
        rw [hax, List.map_map]
        rfl
      rw [hms, ih (fun d => g d ++ [lookupVal (fill_category axis c) d])]
      have hpt : ∀ d : Nat,
          (d, (g d ++ [lookupVal (fill_category axis c) d]) ++
            cs.map (fun c' => lookupVal (fill_category axis c') d)) =
          (d, g d ++ (c :: cs).map (fun c' => lookupVal (fill_category axis c') d)) := by
        intro d
        rw [List.map_cons, List.append_assoc, List.singleton_append]
      exact List.map_congr_left (fun d _ => hpt d)

theorem filter_fst_map_pair (g : Nat → List (Option ℚ)) (p : Nat → Bool) :
    ∀ axis : List Nat,
      (axis.map (fun d => (d, g d))).filter (fun r => p r.1) =
        (axis.filter p).map (fun d => (d, g d)) := by
  intro axis
  induction axis with
  | nil => rfl
  | cons a l ih =>
      rw [List.map_cons, List.filter_cons, List.filter_cons]
      by_cases h : p a = true
      · simp only [h, if_true, List.map_cons, ih]
      · simp only [h, if_false, Bool.false_eq_true, ih]

/-- **C3**: forward-only fill in panel alignment.  For categories with
duplicate-free dates, the merged security panel keeps exactly the (range
filtered) quality date axis, and the value it carries at axis date `d` for
each category is that category's most recent known value at a source date
`≤ d` — never a value from a source row dated after `d`. -/
theorem panel_forward_only_fill (axis : List Nat) (cats : List (List CatRow))
    (start_d end_d : Nat)
    (hnd : ∀ c ∈ cats, (c.map (fun r => r.date)).Nodup) :
    (process_ticker axis cats start_d end_d).map Prod.fst =
      axis.filter (fun d => decide (start_d ≤ d) && decide (d ≤ end_d)) ∧
    ∀ p ∈ process_ticker axis cats start_d end_d,
      p.1 ∈ axis ∧ p.2 = cats.map (fun c => mostRecentVal c p.1) := by
  have hfold : cats.foldl merge_step (axis.map (fun d => (d, ([] : List (Option ℚ))))) =
      axis.map (fun d => (d, cats.map (fun c => lookupVal (fill_category axis c) d))) := by
    have h := foldl_merge_step axis cats (fun _ => [])
    simpa using h
  have hpt : process_ticker axis cats start_d end_d =
      (axis.filter (fun d => decide (start_d ≤ d) && decide (d ≤ end_d))).map
        (fun d => (d, cats.map (fun c => lookupVal (fill_category axis c) d))) := by
    rw [process_ticker, hfold,
      filter_fst_map_pair (fun d => cats.map (fun c => lookupVal (fill_category axis c) d))
        (fun d => decide (start_d ≤ d) && decide (d ≤ end_d)) axis]
  constructor
  · rw [hpt, List.map_map]
    have hid : (Prod.fst ∘ fun d =>
        (d, cats.map (fun c => lookupVal (fill_category axis c) d))) =
        fun d : Nat => d := rfl
    rw [hid]
    exact List.map_id' _
  · intro p hp
    rw [hpt, List.mem_map] at hp
    obtain ⟨d, hdf, heq⟩ := hp
    have hdax : d ∈ axis := List.mem_of_mem_filter hdf
    rw [← heq]
    refine ⟨hdax, ?_⟩
    exact List.map_congr_left
      (fun c hc => fill_category_lookup axis c d hdax (hnd c hc))

/-- Witness for C3: a two-date axis with one single-row category whose
source date lies strictly between the axis dates. -/
theorem panel_forward_only_fill_witness :
    (∀ c ∈ [[(⟨2, some (5 : ℚ)⟩ : CatRow)]], (c.map (fun r => r.date)).Nodup) ∧
    ((process_ticker [1, 3] [[(⟨2, some (5 : ℚ)⟩ : CatRow)]] 0 10).map Prod.fst =
        [1, 3].filter (fun d => decide (0 ≤ d) && decide (d ≤ 10)) ∧
      ∀ p ∈ process_ticker [1, 3] [[(⟨2, some (5 : ℚ)⟩ : CatRow)]] 0 10,
        p.1 ∈ [1, 3] ∧
          p.2 = [[(⟨2, some (5 : ℚ)⟩ : CatRow)]].map (fun c => mostRecentVal c p.1)) :=
  ⟨by decide,
    panel_forward_only_fill [1, 3] [[(⟨2, some (5 : ℚ)⟩ : CatRow)]] 0 10 (by decide)⟩

/-! ## Target Engineering (`five_category_division.py`) -/

/-- One row of the merged multi-security panel fed to
`FiveCategoryDivision.create_target`: its date, its `Ticker`, and its
`close` price (`none` models a `NaN` cell). -/
structure PanelRow where
  date : Nat
  ticker : String
  close : Option ℚ
deriving DecidableEq

/-- `df["close"].pct_change() * 100` over the whole frame: the first row's
change is undefined, and row `i`'s change is `(close_i - close_{i-1}) /
close_{i-1} * 100`.  A missing neighbour yields an undefined change; a
zero previous close (an infinite change in pandas) is likewise modelled as
undefined — every theorem below assumes strictly positive closes, where
the two agree. -/
def pct_changes : Option ℚ → List (Option ℚ) → List (Option ℚ)
  | _, [] => []
  | prev, c :: cs =>
      (match prev, c with
        | some p, some x => if p = 0 then none else some ((x - p) / p * 100)
        | _, _ => none) :: pct_changes c cs

/-- `pd.cut(..., bins=[-inf, -10, 0, 5, 10, inf], labels=[0,1,2,3,4])`:
right-closed buckets `(-∞,-10], (-10,0], (0,5], (5,10], (10,∞)`. -/
def cutBucket (x : ℚ) : Nat :=
  if x ≤ -10 then 0
  else if x ≤ 0 then 1
  else if x ≤ 5 then 2
  else if x ≤ 10 then 3
  else 4

/-- `FiveCategoryDivision.create_target` on a frame with a `close` column:
bucket the rowwise percentage change, shift the resulting label one row
backwards (`shift(-1)`), and drop every row whose shifted label is
undefined (`dropna(subset=["target"])`). -/
def create_target (df : List PanelRow) : List (PanelRow × Nat) :=
  let changes := pct_changes none (df.map (fun r => r.close))
  let targets := changes.map (fun c => c.map cutBucket)
  let shifted := targets.drop 1 ++ [none]
  (df.zip shifted).filterMap (fun p => p.2.map (fun t => (p.1, t)))

/-- Specification-side description of what the code computes on an
all-numeric panel: one labeled row per consecutive pair of panel rows
(regardless of the tickers involved), the label being the bucketed
percentage change from the row to its successor. -/
def consecutiveTargets : List PanelRow → List (PanelRow × Nat)
  | [] => []
  | [_] => []
  | r1 :: r2 :: rs =>
      (r1, cutBucket ((r2.close.getD 0 - r1.close.getD 0) / r1.close.getD 0 * 100)) ::
        consecutiveTargets (r2 :: rs)

theorem create_target_eq_aux :
    ∀ (rs : List PanelRow) (prev : PanelRow),
      (∃ p : ℚ, prev.close = some p ∧ 0 < p) →
      (∀ r ∈ rs, ∃ c : ℚ, r.close = some c ∧ 0 < c) →
      ((prev :: rs).zip (((pct_changes prev.close (rs.map (fun r => r.close))).map
          (fun c => c.map cutBucket)) ++ [none])).filterMap
        (fun p => p.2.map (fun t => (p.1, t))) = consecutiveTargets (prev :: rs) := by
  intro rs
  induction rs with
  | nil =>
      intro prev _ _
      simp [pct_changes, consecutiveTargets]
  | cons r2 rs' ih =>
      intro prev hprev hall
      obtain ⟨p, hp, hppos⟩ := hprev
      obtain ⟨x, hx, _⟩ := hall r2 (List.mem_cons_self _ _)
      have hpne : p ≠ 0 := ne_of_gt hppos
      have hch : pct_changes prev.close ((r2 :: rs').map (fun r => r.close)) =
          some ((x - p) / p * 100) ::
            pct_changes r2.close (rs'.map (fun r => r.close)) := by
        rw [List.map_cons, hp, hx]
        simp only [pct_changes]
        rw [if_neg hpne]
      rw [hch, List.map_cons, List.cons_append, List.zip_cons_cons,
        List.filterMap_cons]
      simp only [Option.map_some']
      rw [ih r2 ⟨x, hx, by obtain ⟨_, _, h⟩ := hall r2 (List.mem_cons_self _ _); assumption⟩
        (fun r hr => hall r (List.mem_cons_of_mem _ hr))]
      rw [consecutiveTargets]
      congr 2
      rw [hp, hx]
      rfl

theorem map_fst_consecutiveTargets :
    ∀ df : List PanelRow, (consecutiveTargets df).map Prod.fst = df.dropLast := by
  intro df
  induction df with
  | nil => rfl
  | cons r rs ih =>
      cases rs with
      | nil => rfl
      | cons r2 rs' =>
          rw [consecutiveTargets, List.map_cons]
          rw [ih]
          rfl

/-- **C4 amended**: on a panel whose closes are all present and positive,
`create_target` labels each row with the bucketed percentage change of
`close` into the *immediately following row of the whole frame* (crossing
symbol boundaries), and drops exactly the rows whose shifted label is
undefined — that is, only the final row of the whole panel, not the final
observation of each symbol. -/
theorem create_target_whole_frame (df : List PanelRow)
    (hpos : ∀ r ∈ df, ∃ c : ℚ, r.close = some c ∧ 0 < c) :
    create_target df = consecutiveTargets df ∧
    (create_target df).map Prod.fst = df.dropLast := by
  have hmain : create_target df = consecutiveTargets df := by
    cases df with
    | nil => rfl
    | cons r rs =>
        have h0 : create_target (r :: rs) =
            ((r :: rs).zip (((pct_changes r.close (rs.map (fun x => x.close))).map
                (fun c => c.map cutBucket)) ++ [none])).filterMap
              (fun p => p.2.map (fun t => (p.1, t))) := rfl
        rw [h0, create_target_eq_aux rs r (hpos r (List.mem_cons_self _ _))
          (fun x hx => hpos x (List.mem_cons_of_mem _ hx))]
  exact ⟨hmain, by rw [hmain, map_fst_consecutiveTargets]⟩

/-- Witness for the amended C4 theorem: the four-row, two-symbol panel
with closes 100, 110, 50, 55. -/
theorem create_target_whole_frame_witness :
    (∀ r ∈ [(⟨1, "A", some (100 : ℚ)⟩ : PanelRow), ⟨2, "A", some 110⟩,
        ⟨3, "B", some 50⟩, ⟨4, "B", some 55⟩], ∃ c : ℚ, r.close = some c ∧ 0 < c) ∧
    (create_target [(⟨1, "A", some (100 : ℚ)⟩ : PanelRow), ⟨2, "A", some 110⟩,
        ⟨3, "B", some 50⟩, ⟨4, "B", some 55⟩] =
      consecutiveTargets [(⟨1, "A", some (100 : ℚ)⟩ : PanelRow), ⟨2, "A", some 110⟩,
        ⟨3, "B", some 50⟩, ⟨4, "B", some 55⟩] ∧
    (create_target [(⟨1, "A", some (100 : ℚ)⟩ : PanelRow), ⟨2, "A", some 110⟩,
        ⟨3, "B", some 50⟩, ⟨4, "B", some 55⟩]).map Prod.fst =
      [(⟨1, "A", some (100 : ℚ)⟩ : PanelRow), ⟨2, "A", some 110⟩,
        ⟨3, "B", some 50⟩, ⟨4, "B", some 55⟩].dropLast) := by
  refine ⟨?_, create_target_whole_frame _ ?_⟩ <;>
    · intro r hr
      rcases List.mem_cons.mp hr with h | hr
      · exact ⟨100, by rw [h], by norm_num⟩
      rcases List.mem_cons.mp hr with h | hr
      · exact ⟨110, by rw [h], by norm_num⟩
      rcases List.mem_cons.mp hr with h | hr
      · exact ⟨50, by rw [h], by norm_num⟩
      rcases List.mem_cons.mp hr with h | hr
      · exact ⟨55, by rw [h], by norm_num⟩
      · cases hr

/-- **C4 counterexample**: on the same panel, symbol A's final observation
(the row dated 2) is *kept*, labeled 0 by the cross-symbol change from
A's close 110 to B's close 50, and only the last row of the whole panel
is dropped — refuting the claim that every symbol's final observation is
dropped and that each label reflects that symbol's own next-period
return. -/
theorem create_target_not_per_symbol :
    create_target [(⟨1, "A", some (100 : ℚ)⟩ : PanelRow), ⟨2, "A", some 110⟩,
        ⟨3, "B", some 50⟩, ⟨4, "B", some 55⟩] =
      [((⟨1, "A", some (100 : ℚ)⟩ : PanelRow), 3), (⟨2, "A", some 110⟩, 0),
        (⟨3, "B", some 50⟩, 3)] ∧
    ((⟨2, "A", some (110 : ℚ)⟩ : PanelRow), 0) ∈
      create_target [(⟨1, "A", some (100 : ℚ)⟩ : PanelRow), ⟨2, "A", some 110⟩,
        ⟨3, "B", some 50⟩, ⟨4, "B", some 55⟩] := by
  have b1 : cutBucket (((110 : ℚ) - 100) / 100 * 100) = 3 := by
    norm_num [cutBucket]
  have b2 : cutBucket (((50 : ℚ) - 110) / 110 * 100) = 0 := by
    norm_num [cutBucket]
  have b3 : cutBucket (((55 : ℚ) - 50) / 50 * 100) = 3 := by
    norm_num [cutBucket]
  have h0 : create_target [(⟨1, "A", some (100 : ℚ)⟩ : PanelRow), ⟨2, "A", some 110⟩,
      ⟨3, "B", some 50⟩, ⟨4, "B", some 55⟩] =
      consecutiveTargets [(⟨1, "A", some (100 : ℚ)⟩ : PanelRow), ⟨2, "A", some 110⟩,
        ⟨3, "B", some 50⟩, ⟨4, "B", some 55⟩] := by
    exact create_target_eq_aux [⟨2, "A", some 110⟩, ⟨3, "B", some 50⟩,
      ⟨4, "B", some 55⟩] ⟨1, "A", some 100⟩ ⟨100, rfl, by norm_num⟩
      (by
        intro r hr
        rcases List.mem_cons.mp hr with h | hr
        · exact ⟨110, by rw [h], by norm_num⟩
        rcases List.mem_cons.mp hr with h | hr
        · exact ⟨50, by rw [h], by norm_num⟩
        rcases List.mem_cons.mp hr with h | hr
        · exact ⟨55, by rw [h], by norm_num⟩
        · cases hr)
  have h1 : consecutiveTargets [(⟨1, "A", some (100 : ℚ)⟩ : PanelRow),
      ⟨2, "A", some 110⟩, ⟨3, "B", some 50⟩, ⟨4, "B", some 55⟩] =
      [((⟨1, "A", some (100 : ℚ)⟩ : PanelRow), 3), (⟨2, "A", some 110⟩, 0),
        (⟨3, "B", some 50⟩, 3)] := by
    simp only [consecutiveTargets, Option.getD_some]
    rw [b1, b2, b3]
  refine ⟨h0.trans h1, ?_⟩
  rw [h0, h1]
  exact List.mem_cons_of_mem _ (List.mem_cons_self _ _)

/-! ## Equity Curve Builder (`equity_curve.py`) -/

/-- The per-quarter average return of `EquityCurve.compute_equity_curve`:
for each picked ticker whose start and end prices both resolve and whose
start price is nonzero, the simple return `price_end / price_start - 1`;
the average of those (`np.mean`), or `0` when no ticker resolves.
`priceAt` abstracts `_get_price_on_date` (the most recent price `≤` the
target date within the 10-day lookback, `none` when unresolvable). -/
def quarterReturn (priceAt : String → Nat → Option ℚ) (qs qe : Nat)
    (tickers : List String) : ℚ :=
  let returns := tickers.filterMap (fun t =>
    match priceAt t qs, priceAt t qe with
    | some ps, some pe => if ps = 0 then none else some (pe / ps - 1)
    | _, _ => none)
  if returns = [] then 0 else returns.sum / returns.length

/-- The `for i in range(len(self.predictions_df))` loop of
`compute_equity_curve`: each record's window runs from its `Quarter` to
the next record's `Quarter` (or `overall_end_date` for the last record);
equity is multiplied by `1 + avg_return` and one `(QuarterEnd, Equity)`
row is appended per record. -/
def compute_equity_points (priceAt : String → Nat → Option ℚ)
    (overallEnd : Nat) : ℚ → List (Nat × List String) → List (Nat × ℚ)
  | _, [] => []
  | equity, (qs, tickers) :: rest =>
      let qe := match rest with
        | (nq, _) :: _ => nq
        | [] => overallEnd
      let equity2 := equity * (1 + quarterReturn priceAt qs qe tickers)
      (qe, equity2) :: compute_equity_points priceAt overallEnd equity2 rest

/-- `EquityCurve.compute_equity_curve`: build the per-record equity rows
starting from `initial_equity`, then sort by `QuarterEnd`. -/
def compute_equity_curve (predictions : List (Nat × List String))
    (priceAt : String → Nat → Option ℚ) (overallEnd : Nat)
    (initial : ℚ) : List (Nat × ℚ) :=
  sortStable (fun a b => decide (a.1 < b.1))
    (compute_equity_points priceAt overallEnd initial predictions)

/-- The sequence of per-record average returns `r₁ … rₙ`. -/
def quarterReturns (priceAt : String → Nat → Option ℚ)
    (overallEnd : Nat) : List (Nat × List String) → List ℚ
  | [] => []
  | (qs, tickers) :: rest =>
      quarterReturn priceAt qs
        (match rest with
          | (nq, _) :: _ => nq
          | [] => overallEnd) tickers :: quarterReturns priceAt overallEnd rest

/-- Compounded equity values: starting from `initial`, multiply by
`1 + r` for each successive return. -/
def compoundedEquity (initial : ℚ) : List ℚ → List ℚ
  | [] => []
  | r :: rest => (initial * (1 + r)) :: compoundedEquity (initial * (1 + r)) rest

theorem map_snd_equity_points (priceAt : String → Nat → Option ℚ)
    (overallEnd : Nat) :
    ∀ (preds : List (Nat × List String)) (initial : ℚ),
      (compute_equity_points priceAt overallEnd initial preds).map Prod.snd =
        compoundedEquity initial (quarterReturns priceAt overallEnd preds) := by
  intro preds
  induction preds with
  | nil => intro initial; rfl
  | cons p rest ih =>
      intro initial
      obtain ⟨qs, tickers⟩ := p
      simp only [compute_equity_points, quarterReturns, compoundedEquity,
        List.map_cons]
      rw [ih]

theorem compoundedEquity_getElem (k : Nat) :
    ∀ (rs : List ℚ) (initial : ℚ), k < rs.length →
      (compoundedEquity initial rs)[k]? =
        some (initial * ((rs.take (k + 1)).map (fun r => 1 + r)).prod) := by
  induction k with
  | zero =>
      intro rs initial hk
      cases rs with
      | nil => simp at hk
      | cons r rest =>
          simp only [compoundedEquity, List.take, List.map_cons, List.map_nil,
            List.prod_cons, List.prod_nil, List.getElem?_cons_zero]
          rw [mul_one]
  | succ k ih =>
      intro rs initial hk
      cases rs with
      | nil => simp at hk
      | cons r rest =>
          simp only [compoundedEquity, List.getElem?_cons_succ, List.take,
            List.map_cons, List.prod_cons]
          rw [ih rest (initial * (1 + r)) (by simpa using hk)]
          rw [mul_assoc]

theorem length_quarterReturns (priceAt : String → Nat → Option ℚ)
    (overallEnd : Nat) :
    ∀ preds : List (Nat × List String),
      (quarterReturns priceAt overallEnd preds).length = preds.length := by
  intro preds
  induction preds with
  | nil => rfl
  | cons p rest ih =>
      obtain ⟨qs, tickers⟩ := p
      simp only [quarterReturns, List.length_cons, ih]

/-- **C5 amended**: equity-curve compounding.  The `k`-th row of the
computed curve (before the final sort, which only reorders rows) carries
equity `initial * Π_{i ≤ k} (1 + rᵢ)`, where `rᵢ` are the per-record
average returns; the curve has no seed point — its first row already
carries `initial * (1 + r₁)` at the first record's quarter end. -/
theorem equity_curve_compounding (priceAt : String → Nat → Option ℚ)
    (overallEnd : Nat) (preds : List (Nat × List String)) (initial : ℚ)
    (k : Nat) (hk : k < preds.length) :
    ((compute_equity_points priceAt overallEnd initial preds).map Prod.snd)[k]? =
      some (initial * (((quarterReturns priceAt overallEnd preds).take (k + 1)).map
        (fun r => 1 + r)).prod) := by
  rw [map_snd_equity_points]
  refine compoundedEquity_getElem k _ initial ?_
  rw [length_quarterReturns]
  exact hk

/-- Price oracle for the spec's worked example: prices 100, 110, 104.5 at
dates 0, 1, 2, giving quarter returns 0.10 and −0.05. -/
def c5Price : String → Nat → Option ℚ := fun _ d =>
  match d with
  | 0 => some 100
  | 1 => some 110
  | 2 => some (209 / 2)
  | _ => none

/-- Witness for the amended C5 theorem at the spec's worked example. -/
theorem equity_curve_compounding_witness :
    1 < ([(0, ["A"]), (1, ["A"])] : List (Nat × List String)).length ∧
    ((compute_equity_points c5Price 2 100 [(0, ["A"]), (1, ["A"])]).map
        Prod.snd)[1]? =
      some (100 * (((quarterReturns c5Price 2 [(0, ["A"]), (1, ["A"])]).take 2).map
        (fun r => 1 + r)).prod) :=
  ⟨by decide, equity_curve_compounding c5Price 2 [(0, ["A"]), (1, ["A"])] 100 1
    (by decide)⟩

/-- **C5 counterexample**: on the spec's own example (initial equity 100,
quarter returns 0.10 then −0.05), the computed curve is
`[(1, 110), (2, 104.5)]` — its first point is the first quarter *end*
with equity already compounded once, not `(strategy_start_date,
initial_equity) = (0, 100)`. -/
theorem equity_curve_first_point_not_seed :
    compute_equity_curve [(0, ["A"]), (1, ["A"])] c5Price 2 100 =
      [(1, 110), (2, 209 / 2)] ∧
    (compute_equity_curve [(0, ["A"]), (1, ["A"])] c5Price 2 100).head? ≠
      some (0, 100) := by
  have hq1 : quarterReturn c5Price 0 1 ["A"] = 1 / 10 := by
    simp only [quarterReturn, List.filterMap, c5Price]
    norm_num
  have hq2 : quarterReturn c5Price 1 2 ["A"] = -(1 / 20) := by
    simp only [quarterReturn, List.filterMap, c5Price]
    norm_num
  have hpts : compute_equity_points c5Price 2 100 [(0, ["A"]), (1, ["A"])] =
      [(1, 110), (2, 209 / 2)] := by
    simp only [compute_equity_points, hq1, hq2]
    norm_num
  have hcurve : compute_equity_curve [(0, ["A"]), (1, ["A"])] c5Price 2 100 =
      [(1, 110), (2, 209 / 2)] := by
    rw [compute_equity_curve, hpts]
    simp [sortStable, insertStable]
  refine ⟨hcurve, ?_⟩
  rw [hcurve]
  simp

/-! ## Feature Selection (`eighty_cummulative.py`) -/

/-- The duck-typed model consumed by `CummulativeImportanceSelector`:
either a `feature_importances_` vector, a 1-D `coef_` vector, or a 2-D
`coef_` matrix (rows = outputs, columns = features); `none` models an
absent attribute. -/
structure SKModel where
  feature_importances : Option (List ℚ)
  coef : Option (List ℚ ⊕ List (List ℚ))

/-- `np.mean(axis=0)` of a 2-D array: column-wise means. -/
def colMeans (m : List (List ℚ)) : List ℚ :=
  m.transpose.map (fun col => col.sum / col.length)

/-- The importance vector the selector works with:
`feature_importances_` verbatim when present, otherwise `np.abs(coef_)`,
averaged over outputs when 2-D; `none` when the model exposes neither
attribute. -/
def extract_importances (m : SKModel) : Option (List ℚ) :=
  match m.feature_importances with
  | some v => some v
  | none =>
      match m.coef with
      | some (Sum.inl v) => some (v.map (fun x => |x|))
      | some (Sum.inr mat) =>
          some (colMeans (mat.map (fun row => row.map (fun x => |x|))))
      | none => none

/-- The errors `_validate_inputs` can raise: `AttributeError` for a model
without a recognized importance attribute, `ValueError` for a threshold
outside `(0, 1]` or an importance/feature length mismatch. -/
inductive SelectorError
  | attrError
  | thresholdError
  | lengthError
deriving DecidableEq

/-- `CummulativeImportanceSelector._validate_inputs`, run at construction:
attribute check first, then the threshold range, then the length match. -/
def validate_inputs (model : SKModel) (features : List String)
    (threshold : ℚ) : Except SelectorError Unit :=
  match extract_importances model with
  | none => .error .attrError
  | some imps =>
      if threshold ≤ 0 ∨ 1 < threshold then .error .thresholdError
      else if imps.length ≠ features.length then .error .lengthError
      else .ok ()

/-- The greedy accumulation loop of `select_features`: append the next
feature, add its importance to the running total, and stop as soon as the
total reaches the threshold. -/
def greedyTake (threshold : ℚ) : ℚ → List (String × ℚ) → List (String × ℚ)
  | _, [] => []
  | cum, (f, imp) :: rest =>
      if threshold ≤ cum + imp then [(f, imp)]
      else (f, imp) :: greedyTake threshold (cum + imp) rest

/-- `CummulativeImportanceSelector.select_features`: normalize the
importances when their total differs from 1 (`np.isclose` modelled as
exact equality over `ℚ`), sort the (feature, importance) pairs by
importance descending (stably, as Python's `sorted`), and greedily accept
features until the cumulative importance reaches the threshold. -/
def select_features (features : List String) (importances : List ℚ)
    (threshold : ℚ) : List String :=
  let total := importances.sum
  let imps := if total = 1 then importances
    else importances.map (fun x => x / total)
  let pairs := sortStable (fun a b => decide (b.2 < a.2)) (features.zip imps)
  (greedyTake threshold 0 pairs).map Prod.fst

theorem extract_importances_isSome_iff (m : SKModel) :
    (extract_importances m).isSome ↔
      m.feature_importances.isSome ∨ m.coef.isSome := by
  rw [extract_importances]
  cases m.feature_importances with
  | some v => simp
  | none =>
      cases hc : m.coef with
      | none => simp
      | some c => cases c <;> simp

/-- **C9**: selector construction succeeds exactly when the model exposes
an importance or coefficient attribute, the threshold lies in `(0, 1]`,
and the importance vector's length equals the number of feature columns;
each violation raises the corresponding validation error. -/
theorem selector_validation_iff (model : SKModel) (features : List String)
    (threshold : ℚ) :
    validate_inputs model features threshold = .ok () ↔
      ((model.feature_importances.isSome ∨ model.coef.isSome) ∧
        (0 < threshold ∧ threshold ≤ 1) ∧
        ∃ imps, extract_importances model = some imps ∧
          imps.length = features.length) := by
  cases he : extract_importances model with
  | none =>
      simp only [validate_inputs, he]
      constructor
      · intro h
        cases h
      · rintro ⟨hattr, -, imps, himps, -⟩
        cases himps
  | some imps =>
      have hs : (extract_importances model).isSome := by rw [he]; rfl
      rw [extract_importances_isSome_iff] at hs
      simp only [validate_inputs, he]
      by_cases ht : threshold ≤ 0 ∨ 1 < threshold
      · rw [if_pos ht]
        constructor
        · intro h
          cases h
        · rintro ⟨-, ⟨ht1, ht2⟩, -⟩
          rcases ht with h | h
          · exact absurd ht1 (not_lt.mpr h)
          · exact absurd ht2 (not_le.mpr h)
      · rw [if_neg ht]
        push_neg at ht
        by_cases hl : imps.length ≠ features.length
        · rw [if_pos hl]
          constructor
          · intro h
            cases h
          · rintro ⟨-, -, imps', himps', hlen'⟩
            injection himps' with himps'
            exact (hl (himps' ▸ hlen')).elim
        · rw [if_neg hl]
          push_neg at hl
          constructor
          · intro _
            exact ⟨hs, ⟨ht.1, ht.2⟩, imps, rfl, hl⟩
          · intro _
            rfl

theorem greedyTake_isPrefixOf (threshold : ℚ) :
    ∀ (pairs : List (String × ℚ)) (cum : ℚ),
      greedyTake threshold cum pairs <+: pairs := by
  intro pairs
  induction pairs with
  | nil => intro cum; exact List.prefix_refl _
  | cons p rest ih =>
      intro cum
      obtain ⟨f, imp⟩ := p
      rw [greedyTake]
      by_cases h : threshold ≤ cum + imp
      · rw [if_pos h]
        exact ⟨rest, rfl⟩
      · rw [if_neg h]
        obtain ⟨t, ht⟩ := ih (cum + imp)
        exact ⟨t, by rw [List.cons_append, ht]⟩

theorem greedyTake_ne_nil (threshold : ℚ) (pairs : List (String × ℚ)) (cum : ℚ)
    (h : pairs ≠ []) : greedyTake threshold cum pairs ≠ [] := by
  cases pairs with
  | nil => exact absurd rfl h
  | cons p rest =>
      obtain ⟨f, imp⟩ := p
      rw [greedyTake]
      by_cases hc : threshold ≤ cum + imp
      · rw [if_pos hc]
        exact List.cons_ne_nil _ _
      · rw [if_neg hc]
        exact List.cons_ne_nil _ _

theorem greedyTake_bound (threshold : ℚ) :
    ∀ (pairs : List (String × ℚ)) (cum : ℚ),
      threshold ≤ cum + (pairs.map Prod.snd).sum → pairs ≠ [] →
      threshold ≤ cum + ((greedyTake threshold cum pairs).map Prod.snd).sum := by
  intro pairs
  induction pairs with
  | nil => intro cum _ hne; exact absurd rfl hne
  | cons p rest ih =>
      intro cum hsum _
      obtain ⟨f, imp⟩ := p
      rw [greedyTake]
      by_cases h : threshold ≤ cum + imp
      · rw [if_pos h]
        simpa using h
      · rw [if_neg h]
        cases rest with
        | nil =>
            exfalso
            simp only [List.map_cons, List.map_nil, List.sum_cons,
              List.sum_nil, add_zero] at hsum
            exact h hsum
        | cons q rest' =>
            have hs : threshold ≤ (cum + imp) +
                ((q :: rest').map Prod.snd).sum := by
              simp only [List.map_cons, List.sum_cons] at hsum ⊢
              linarith
            have := ih (cum + imp) hs (List.cons_ne_nil _ _)
            simp only [List.map_cons, List.sum_cons]
            linarith

theorem greedyTake_minimal (threshold : ℚ) :
    ∀ (pairs : List (String × ℚ)) (cum : ℚ), cum < threshold →
      cum + (((greedyTake threshold cum pairs).dropLast).map Prod.snd).sum <
        threshold := by
  intro pairs
  induction pairs with
  | nil =>
      intro cum hcum
      simpa [greedyTake] using hcum
  | cons p rest ih =>
      intro cum hcum
      obtain ⟨f, imp⟩ := p
      rw [greedyTake]
      by_cases h : threshold ≤ cum + imp
      · rw [if_pos h]
        simpa using hcum
      · rw [if_neg h]
        rw [not_le] at h
        cases hg : greedyTake threshold (cum + imp) rest with
        | nil =>
            simpa using hcum
        | cons g gs =>
            rw [List.dropLast_cons₂, List.map_cons, List.sum_cons]
            have := ih (cum + imp) h
            rw [hg] at this
            linarith

theorem sum_map_div (c : ℚ) :
    ∀ l : List ℚ, (l.map (fun x => x / c)).sum = l.sum / c := by
  intro l
  induction l with
  | nil => simp
  | cons x xs ih =>
      rw [List.map_cons, List.sum_cons, List.sum_cons, ih, add_div]

/-- **C8 amended**: cumulative-importance bound and minimality.  For any
importance vector of matching width whose total is nonzero, the selected
features are a nonempty prefix of the importance-descending order, their
summed normalized importance reaches the threshold, and dropping the
last-accepted feature falls strictly below it.  (With a zero-total vector
— the situation the counterexample exhibits — normalization is degenerate
and the bound fails.) -/
theorem cumulative_importance_selection (features : List String)
    (importances : List ℚ) (threshold : ℚ)
    (ht0 : 0 < threshold) (ht1 : threshold ≤ 1)
    (hlen : features.length = importances.length)
    (hsum : importances.sum ≠ 0) :
    ∃ selPairs : List (String × ℚ),
      select_features features importances threshold = selPairs.map Prod.fst ∧
      selPairs <+: sortStable (fun a b => decide (b.2 < a.2))
        (features.zip (if importances.sum = 1 then importances
          else importances.map (fun x => x / importances.sum))) ∧
      selPairs ≠ [] ∧
      selPairs.Pairwise (fun a b => b.2 ≤ a.2) ∧
      threshold ≤ (selPairs.map Prod.snd).sum ∧
      ((selPairs.dropLast).map Prod.snd).sum < threshold := by
  have himps_len : (if importances.sum = 1 then importances
      else importances.map (fun x => x / importances.sum)).length =
      importances.length := by
    by_cases h : importances.sum = 1
    · rw [if_pos h]
    · rw [if_neg h, List.length_map]
  have himps_sum : (if importances.sum = 1 then importances
      else importances.map (fun x => x / importances.sum)).sum = 1 := by
    by_cases h : importances.sum = 1
    · rw [if_pos h]
      exact h
    · rw [if_neg h, sum_map_div, div_self hsum]
  have hzip_snd : List.map Prod.snd (features.zip
      (if importances.sum = 1 then importances
        else importances.map (fun x => x / importances.sum))) =
      (if importances.sum = 1 then importances
        else importances.map (fun x => x / importances.sum)) :=
    List.map_snd_zip _ _ (by rw [himps_len, hlen])
  have hperm := perm_sortStable (fun a b : String × ℚ => decide (b.2 < a.2))
    (features.zip (if importances.sum = 1 then importances
      else importances.map (fun x => x / importances.sum)))
  have hsorted_sum : (List.map Prod.snd (sortStable
      (fun a b : String × ℚ => decide (b.2 < a.2))
      (features.zip (if importances.sum = 1 then importances
        else importances.map (fun x => x / importances.sum))))).sum = 1 := by
    rw [(hperm.map Prod.snd).sum_eq, hzip_snd, himps_sum]
  have hne_imps : importances ≠ [] := by
    intro h
    rw [h] at hsum
    exact hsum rfl
  have hne_sorted : sortStable (fun a b : String × ℚ => decide (b.2 < a.2))
      (features.zip (if importances.sum = 1 then importances
        else importances.map (fun x => x / importances.sum))) ≠ [] := by
    intro h
    have hlen0 := congrArg List.length h
    rw [hperm.length_eq] at hlen0
    cases hf : features with
    | nil =>
        rw [hf, List.length_nil] at hlen
        exact hne_imps (List.eq_nil_of_length_eq_zero hlen.symm)
    | cons a fs =>
        cases hi : importances with
        | nil => exact hne_imps hi
        | cons b is =>
            rw [hf] at hlen0
            have : (if importances.sum = 1 then importances
                else importances.map (fun x => x / importances.sum)) ≠ [] := by
              intro hnil
              rw [hnil] at himps_len
              rw [hi] at himps_len
              simp at himps_len
            cases hj : (if importances.sum = 1 then importances
                else importances.map (fun x => x / importances.sum)) with
            | nil => exact this hj
            | cons c js =>
                rw [hj] at hlen0
                simp [List.zip_cons_cons] at hlen0
  have hdesc : (sortStable (fun a b : String × ℚ => decide (b.2 < a.2))
      (features.zip (if importances.sum = 1 then importances
        else importances.map (fun x => x / importances.sum)))).Pairwise
      (fun a b => b.2 ≤ a.2) := by
    refine pairwise_sortStable _ _ ?_ ?_ ?_ _
    · intro a b c hab hbc
      exact le_trans hbc hab
    · intro a b h
      rw [decide_eq_true_eq] at h
      exact le_of_lt h
    · intro a b h
      rw [decide_eq_false_iff_not] at h
      exact le_of_not_lt h
  refine ⟨greedyTake threshold 0 (sortStable (fun a b : String × ℚ => decide (b.2 < a.2))
    (features.zip (if importances.sum = 1 then importances
      else importances.map (fun x => x / importances.sum)))), rfl,
    greedyTake_isPrefixOf threshold _ 0, greedyTake_ne_nil threshold _ 0 hne_sorted,
    List.Pairwise.sublist ((greedyTake_isPrefixOf threshold _ 0).sublist) hdesc, ?_, ?_⟩
  · have := greedyTake_bound threshold (sortStable
      (fun a b : String × ℚ => decide (b.2 < a.2))
      (features.zip (if importances.sum = 1 then importances
        else importances.map (fun x => x / importances.sum)))) 0
      (by rw [hsorted_sum, zero_add]; exact ht1) hne_sorted
    linarith
  · have := greedyTake_minimal threshold (sortStable
      (fun a b : String × ℚ => decide (b.2 < a.2))
      (features.zip (if importances.sum = 1 then importances
        else importances.map (fun x => x / importances.sum)))) 0 ht0
    linarith

/-- Witness for the amended C8 theorem: four features with importances
0.4, 0.3, 0.2, 0.1 at the default threshold 0.8. -/
theorem cumulative_importance_selection_witness :
    ((0 : ℚ) < 4 / 5 ∧ (4 : ℚ) / 5 ≤ 1 ∧
      (["a", "b", "c", "d"] : List String).length =
        ([2/5, 3/10, 1/5, 1/10] : List ℚ).length ∧
      ([2/5, 3/10, 1/5, 1/10] : List ℚ).sum ≠ 0) ∧
    ∃ selPairs : List (String × ℚ),
      select_features ["a", "b", "c", "d"] [2/5, 3/10, 1/5, 1/10] (4 / 5) =
        selPairs.map Prod.fst ∧
      selPairs <+: sortStable (fun a b => decide (b.2 < a.2))
        (["a", "b", "c", "d"].zip
          (if ([2/5, 3/10, 1/5, 1/10] : List ℚ).sum = 1 then [2/5, 3/10, 1/5, 1/10]
            else [2/5, 3/10, 1/5, 1/10].map
              (fun x => x / ([2/5, 3/10, 1/5, 1/10] : List ℚ).sum))) ∧
      selPairs ≠ [] ∧
      selPairs.Pairwise (fun a b => b.2 ≤ a.2) ∧
      (4 : ℚ) / 5 ≤ (selPairs.map Prod.snd).sum ∧
      ((selPairs.dropLast).map Prod.snd).sum < 4 / 5 :=
  ⟨⟨by norm_num, by norm_num, rfl, by norm_num⟩,
    cumulative_importance_selection ["a", "b", "c", "d"] [2/5, 3/10, 1/5, 1/10]
      (4 / 5) (by norm_num) (by norm_num) rfl (by norm_num)⟩

/-- **C8 counterexample**: a model whose importance vector is all zeros (a
legitimate fitted model, e.g. a forest grown on a constant target) defeats
the bound: normalization divides by a zero total, no cumulative threshold
is ever reached, every feature is selected, and the selected features'
summed normalized importance is 0, strictly below the 0.8 threshold. -/
theorem cumulative_bound_fails_on_zero_importances :
    select_features ["a"] [(0 : ℚ)] (4 / 5) = ["a"] ∧
    ([(0 : ℚ)].map (fun x => x / ([(0 : ℚ)] : List ℚ).sum)).sum < 4 / 5 := by
  constructor
  · simp only [select_features, List.sum_cons, List.sum_nil, add_zero]
    norm_num [sortStable, insertStable, greedyTake]
  · norm_num

/-- Witness for C2: a one-quarter run whose loop reaches the model-fitting
step with one training row dated strictly before the quarter. -/
theorem no_lookahead_walk_forward_witness :
    ((100, [(⟨50, "A", 0, []⟩ : DataRow)]) ∈
      (walk_forward failingOracle [(100, ["A"])]
        [⟨50, "A", 0, []⟩, ⟨150, "A", 0, []⟩] 100 100).trainSets) ∧
    ((⟨50, "A", 0, []⟩ : DataRow) ∈ [(⟨50, "A", 0, []⟩ : DataRow)]) ∧
    (⟨50, "A", (0 : ℚ), []⟩ : DataRow).date < 100 :=
  ⟨by decide, by decide,
    no_lookahead_walk_forward failingOracle [(100, ["A"])]
      [⟨50, "A", 0, []⟩, ⟨150, "A", 0, []⟩] 100 100
      (100, [⟨50, "A", 0, []⟩]) (by decide) ⟨50, "A", 0, []⟩ (by decide)⟩
